import Mathlib

/-! Verification of `topk_words`

A shallow embedding of `src/topk_words.cpp` and proofs about its three stages:
the tokenizer/counter (`count_words`, `tolower`), the merger (`merge_counters`)
and the top-K selector (`print_topk`).

Modelling conventions.

* A `char` is a `Byte`, a number below 256; a `std::string` is a list of bytes.
* `std::map<std::string, std::size_t>` is the list of its entries in iteration
  order, that is by strictly ascending key (`Counter.WF`); `std::string` keys are
  compared lexicographically on unsigned bytes (`wordLt`).
* `std::size_t` arithmetic is arithmetic on `Nat` reduced modulo `SIZE_MOD = 2^64`.
* The input stream is the list of bytes it delivers.
* `std::partial_sort` is known by the guarantee the C++ standard gives of it
  (`PartialSortContract`); the order it leaves among equal counts is unspecified, so
  `print_topk` takes the sort as a parameter and its properties are proved for every
  sort that meets the contract. `partial_sort` is one such sort.
-/

namespace TopkWords

/-! ## Data model -/

/-- One `char` of a `std::string`, seen as `unsigned char`. -/
abbrev Byte := Fin 256

/-- A `std::string`. -/
abbrev Word := List Byte

/-- An element of `Counter`: `first` is the word, `second` its count. -/
abbrev Entry := Word × Nat

/-- Source `using Counter = std::map<std::string, std::size_t>`: entries in iteration order. -/
abbrev Counter := List Entry

/-- Source `using FileCounters = std::vector<Counter>`. -/
abbrev FileCounters := List Counter

/-- Source `const size_t TOPK = 10`. -/
def TOPK : Nat := 10

/-- Number of values of `std::size_t` (64-bit target). -/
def SIZE_MOD : Nat := 2 ^ 64

/-- The bytes of an ASCII string literal. -/
def ascii (s : String) : List Byte := s.toList.map (fun c => Fin.ofNat c.toNat)

/-- The key order `std::less<std::string>`: lexicographic comparison on unsigned byte values,
a proper prefix being smaller. -/
def wordLt : Word → Word → Bool
  | [], [] => false
  | [], _ :: _ => true
  | _ :: _, [] => false
  | a :: as, b :: bs =>
    if a.val < b.val then true
    else if b.val < a.val then false
    else wordLt as bs

/-- Lookup, `std::map::find` through to the mapped value: `none` when the key is absent. -/
def Counter.find : Counter → Word → Option Nat
  | [], _ => none
  | (k, v) :: rest, w => if k = w then some v else Counter.find rest w

/-- The count a mapping gives a word, taking 0 where the word is absent. -/
def Counter.count (m : Counter) (w : Word) : Nat := (m.find w).getD 0

/-- The key sequence of a mapping, in iteration order. -/
def Counter.keys (m : Counter) : List Word := m.map Prod.fst

/-- The statement `counter[w] = f(counter[w])`: `operator[]` value-initialises the mapped value to 0
when the key is absent (inserting it at its place in key order) and `f` is applied to
the mapped value. -/
def Counter.update (f : Nat → Nat) : Counter → Word → Counter
  | [], w => [(w, f 0)]
  | (k, v) :: rest, w =>
    if wordLt w k then (w, f 0) :: (k, v) :: rest
    else if wordLt k w then (k, v) :: Counter.update f rest w
    else (k, f v) :: rest

/-- Keys strictly ascending (hence unique) in iteration order. -/
def Counter.Sorted (m : Counter) : Prop := m.Pairwise (fun a b => wordLt a.1 b.1 = true)

/-- The class invariant of `std::map<std::string, std::size_t>`: keys strictly
ascending and every count a `std::size_t` value. -/
def Counter.WF (m : Counter) : Prop :=
  Counter.Sorted m ∧ ∀ e ∈ m, e.2 < SIZE_MOD

instance (m : Counter) : Decidable (Counter.Sorted m) :=
  inferInstanceAs (Decidable (List.Pairwise _ m))

instance (m : Counter) : Decidable (Counter.WF m) :=
  inferInstanceAs (Decidable (Counter.Sorted m ∧ ∀ e ∈ m, e.2 < SIZE_MOD))

/-! ## `tolower` -/

/-- Library `std::tolower(int)` of `<cctype>` in the "C" locale, on `unsigned char` values. -/
def std_tolower (ch : Nat) : Nat := if 65 ≤ ch ∧ ch ≤ 90 then ch + 32 else ch

/-- Source `std::string tolower(const std::string& str)`: `std::transform` over the bytes with
`[](unsigned char ch) { return std::tolower(ch); }`, each result converted back to
`char` by `back_inserter`. -/
def tolower (str : Word) : Word := str.map (fun ch => Fin.ofNat (std_tolower ch.val))

/-! ## `count_words` -/

/-- Library `std::isspace` in the "C" locale: tab, newline, vertical tab, form feed,
carriage return, space. -/
def isspace (c : Byte) : Bool := (9 ≤ c.val ∧ c.val ≤ 13) || c.val = 32

/-- The sequence `std::istream_iterator<std::string>` yields over the remaining input.
`cur` is the string being extracted by `operator>>`; `cur = []` while leading
whitespace is still being skipped. Extraction stops at whitespace or end of input; an
extraction that reaches end of input without a character ends the iteration. -/
def extract : List Byte → Word → List Word
  | [], cur => if cur = [] then [] else [cur]
  | c :: cs, cur =>
    if isspace c then (if cur = [] then extract cs [] else cur :: extract cs [])
    else extract cs (cur ++ [c])

/-- The tokens `std::istream_iterator<std::string>(stream)` yields up to
`std::istream_iterator<std::string>()`. -/
def tokens (stream : List Byte) : List Word := extract stream []

/-! ### Tokens as the specification words them

"Tokens are exactly the whitespace-delimited substrings": a token is a maximal
non-empty substring without whitespace, described here by its positions in the text,
independently of how `extract` scans. -/

/-- The substring `s[i..j)`. -/
def slice (s : List Byte) (i j : Nat) : List Byte := (s.drop i).take (j - i)

/-- The text has a whitespace byte at position `i`. -/
def isspace_at (s : List Byte) (i : Nat) : Bool :=
  match s[i]? with
  | some c => isspace c
  | none => false

/-- Specification: `s[i..j)` is a maximal whitespace-delimited substring of `s`: it is
not empty, lies within `s`, holds no whitespace byte, and is bounded on the left by the
beginning of `s` or a whitespace byte and on the right by the end of `s` or a whitespace
byte. -/
def is_token (s : List Byte) (i j : Nat) : Bool :=
  decide (i < j) && decide (j ≤ s.length) &&
  (slice s i j).all (fun c => !isspace c) &&
  (decide (i = 0) || isspace_at s (i - 1)) &&
  (decide (j = s.length) || isspace_at s j)

/-- Specification: the positions `(i, j)` of the maximal whitespace-delimited substrings
of `s`, by ascending start. -/
def token_spans (s : List Byte) : List (Nat × Nat) :=
  (List.range (s.length + 1)).flatMap (fun i =>
    ((List.range (s.length + 1)).filter (fun j => is_token s i j)).map (fun j => (i, j)))

/-- Specification: the maximal whitespace-delimited substrings of `s`, one for each
occurrence, by ascending start. -/
def whitespace_delimited (s : List Byte) : List Word :=
  (token_spans s).map (fun p => slice s p.1 p.2)

/-- Specification: the number of maximal whitespace-delimited substrings `t` of `s` with
`tolower t = w`. -/
def occurrences (s : List Byte) (w : Word) : Nat :=
  ((whitespace_delimited s).filter (fun t => decide (tolower t = w))).length

/-- An ASCII uppercase letter, `'A'..'Z'`. -/
def is_upper (b : Byte) : Bool := decide (65 ≤ b.val ∧ b.val ≤ 90)

/-- An ASCII lowercase letter, `'a'..'z'`. -/
def is_lower (b : Byte) : Bool := decide (97 ≤ b.val ∧ b.val ≤ 122)

/-- Specification: two bytes are the same, or are the uppercase and the lowercase form of
one ASCII letter. -/
def same_letter (a b : Byte) : Bool :=
  a == b || (is_upper a && is_lower b && a.val + 32 == b.val) ||
    (is_lower a && is_upper b && b.val + 32 == a.val)

/-- Specification: two strings differ only in the case of ASCII letters. -/
def differ_only_in_case : Word → Word → Bool
  | [], [] => true
  | a :: t, b :: u => same_letter a b && differ_only_in_case t u
  | [], _ :: _ => false
  | _ :: _, [] => false

/-- The longest whitespace-free prefix of the text. -/
def run (s : List Byte) : List Byte := s.takeWhile (fun c => !isspace c)

/-- The whitespace-free runs that start in `s`, the first byte of `s` starting one only
when `prev_ws` says that it follows whitespace or the beginning of the text. -/
def runs_from (prev_ws : Bool) : List Byte → List Word
  | [] => []
  | c :: cs => (if prev_ws && !isspace c then [run (c :: cs)] else []) ++ runs_from (isspace c) cs

/-- The whitespace-free run starting at position `i` of `s`, if one starts there:
position 0 starts a run only when `prev_ws` holds, a later position only after a
whitespace byte. -/
def runs_at (prev_ws : Bool) (s : List Byte) (i : Nat) : List Word :=
  if (if i = 0 then prev_ws = true else isspace_at s (i - 1) = true) ∧ run (s.drop i) ≠ []
  then [run (s.drop i)] else []

/-- The statement `++counter[w]`. -/
def Counter.increment (counter : Counter) (w : Word) : Counter :=
  Counter.update (fun v => (v + 1) % SIZE_MOD) counter w

/-- Source `Counter count_words(std::istream& stream)`: the for_each over the tokens of
`++counter[tolower(s)]`, from an empty `counter`. -/
def count_words (stream : List Byte) : Counter :=
  (tokens stream).foldl (fun counter s => counter.increment (tolower s)) []

/-! ## `merge_counters` -/

/-- The statement `merged_counter[word] += count`. -/
def Counter.add (merged_counter : Counter) (e : Entry) : Counter :=
  Counter.update (fun v => (v + e.2) % SIZE_MOD) merged_counter e.1

/-- Source `Counter merge_counters(const FileCounters& counters)`: for every counter in
order, for every `[word, count]` of it in key order, `merged_counter[word] += count`. -/
def merge_counters (counters : FileCounters) : Counter :=
  counters.foldl (fun merged_counter counter => counter.foldl Counter.add merged_counter) []

/-- The sum of the counts of the entries of `es` whose word is `w`. -/
def total (es : List Entry) (w : Word) : Nat :=
  ((es.filter (fun e => decide (e.1 = w))).map Prod.snd).sum

/-! ## `print_topk` -/

/-- The comparison `print_topk` passes to `std::partial_sort`:
`[](auto lhs, auto& rhs) { return lhs->second > rhs->second; }`. -/
def comp (lhs rhs : Entry) : Bool := decide (lhs.2 > rhs.2)

/-- The requirement `Compare` of the C++ standard: a strict weak ordering. -/
structure StrictWeakOrdering (cmp : Entry → Entry → Bool) : Prop where
  irrefl : ∀ a, cmp a a = false
  trans : ∀ a b c, cmp a b = true → cmp b c = true → cmp a c = true
  equiv_trans : ∀ a b c, cmp a b = false → cmp b a = false → cmp b c = false → cmp c b = false →
    cmp a c = false ∧ cmp c a = false

/-- What the C++ standard guarantees of `std::partial_sort(first, first + middle, last, cmp)`
when its preconditions hold (`middle` within the range, `cmp` a strict weak ordering):
the range is rearranged, its first `middle` places hold, in order, the `middle` elements
that come first with respect to `cmp`, and the order of the remaining places is
unspecified. `sort words middle cmp` is the range after the call. -/
structure PartialSortContract (sort : List Entry → Nat → (Entry → Entry → Bool) → List Entry) :
    Prop where
  perm : ∀ words middle cmp, middle ≤ words.length → StrictWeakOrdering cmp →
    (sort words middle cmp).Perm words
  sorted : ∀ words middle cmp, middle ≤ words.length → StrictWeakOrdering cmp →
    ((sort words middle cmp).take middle).Pairwise (fun a b => cmp b a = false)
  first : ∀ words middle cmp, middle ≤ words.length → StrictWeakOrdering cmp →
    ∀ a ∈ (sort words middle cmp).take middle, ∀ b ∈ (sort words middle cmp).drop middle,
      cmp b a = false

/-- Insertion of `x` into a list ordered by `cmp`, after the elements that precede it. -/
def insert_sorted (cmp : Entry → Entry → Bool) (x : Entry) : List Entry → List Entry
  | [] => [x]
  | y :: ys => if cmp y x then y :: insert_sorted cmp x ys else x :: y :: ys

/-- One conforming `std::partial_sort`: sorting the whole range (by stable insertion)
leaves its first `middle` places as required. -/
def partial_sort (words : List Entry) (_middle : Nat) (cmp : Entry → Entry → Bool) : List Entry :=
  words.foldr (insert_sorted cmp) []

/-- Decimal digits of a count, as `operator<<` writes a `std::size_t`. -/
def decimal (n : Nat) : List Byte := (Nat.toDigits 10 n).map (fun c => Fin.ofNat c.toNat)

/-- One output row: `stream << std::setw(4) << count << " " << word << '\n'`; the count
is right-justified with spaces in a field of width 4 and written in full when longer. -/
def format_row (e : Entry) : List Byte :=
  List.replicate (4 - (decimal e.2).length) 32 ++ decimal e.2 ++ [32] ++ e.1 ++ [10]

/-- The entries `print_topk` writes, in order: `words[i]` for `i < actual_k` after the
partial sort of the iterators `cbegin(counter) .. cend(counter)`. -/
def topk_rows (sort : List Entry → Nat → (Entry → Entry → Bool) → List Entry)
    (counter : Counter) (k : Nat) : List Entry :=
  let words := counter
  let actual_k := min k words.length
  (sort words actual_k comp).take actual_k

/-- Source `void print_topk(std::ostream& stream, const Counter& counter, const size_t k)`:
the bytes written to `stream`. -/
def print_topk (sort : List Entry → Nat → (Entry → Entry → Bool) → List Entry)
    (counter : Counter) (k : Nat) : List Byte :=
  (topk_rows sort counter k).flatMap format_row

/-- The split point `print_topk` passes to `std::partial_sort`:
`size_t actual_k = std::min(k, words.size())`. -/
def actual_k (counter : Counter) (k : Nat) : Nat := min k counter.length

/-- A decimal digit, `'0'..'9'`. -/
def is_digit (b : Byte) : Bool := decide (48 ≤ b.val ∧ b.val ≤ 57)

/-- Specification: the number a string of decimal digits denotes. -/
def decimal_value (ds : List Byte) : Nat := ds.foldl (fun acc d => 10 * acc + (d.val - 48)) 0

/-- Specification: `cs'` is `cs` with empty mappings inserted, any number of them at any
positions. -/
inductive EmptiesInserted : FileCounters → FileCounters → Prop where
  | done : EmptiesInserted [] []
  | keep (c : Counter) {cs cs' : FileCounters} :
      EmptiesInserted cs cs' → EmptiesInserted (c :: cs) (c :: cs')
  | insert {cs cs' : FileCounters} : EmptiesInserted cs cs' → EmptiesInserted cs ([] :: cs')

/-! ## `main` -/

/-- Value of `EXIT_SUCCESS` of `<cstdlib>`. -/
def EXIT_SUCCESS : Nat := 0

/-- Value of `EXIT_FAILURE` of `<cstdlib>`. -/
def EXIT_FAILURE : Nat := 1

/-- What `std::ifstream input{file}` finds: the bytes of the file at a path that opens,
`none` for a path that cannot be opened for reading. -/
abbrev Files := List Byte → Option (List Byte)

/-- What a run of the program leaves behind: the exit status, the bytes written to
`std::cout`, and the messages written to `std::cerr`. The per-file tasks run concurrently,
so the order in which their messages reach `std::cerr`, and how the pieces of two messages
interleave there, is not determined; `err` lists what each task writes, by task. -/
@[ext]
structure Run where
  status : Nat
  out : List Byte
  err : List (List Byte)
deriving DecidableEq

/-- The usage message of `main`. -/
def usage : List Byte := ascii "Usage: topk_words [FILES...]\n"

/-- The diagnostic of a task whose file did not open:
`std::cerr << "Failed to open file " << file << '\n'`. -/
def diagnostic (file : List Byte) : List Byte := ascii "Failed to open file " ++ file ++ [10]

/-- The task `main` launches for `argv[i]`: the mapping it returns and what it writes to
`std::cerr`. A file that does not open gives `Counter{}` and a diagnostic, any other
`count_words(input)`. -/
def file_task (files : Files) (file : List Byte) : Counter × List (List Byte) :=
  match files file with
  | none => ([], [diagnostic file])
  | some input => (count_words input, [])

/-- The vector `file_counters` of `main` once every future is collected:
`file_counters[i] = futures[i].get()`, in argument order. -/
def file_counters (files : Files) (argv : List (List Byte)) : FileCounters :=
  (argv.drop 1).map (fun file => (file_task files file).1)

/-- The `global_counter` of `main`: `merge_counters(file_counters)`. -/
def global_counter (files : Files) (argv : List (List Byte)) : Counter :=
  merge_counters (file_counters files argv)

/-- The last line of a successful run, `"Elapsed time is " << elapsed_ms.count() << " us\n"`. -/
def elapsed_line (elapsed : Nat) : List Byte :=
  ascii "Elapsed time is " ++ decimal elapsed ++ ascii " us\n"

/-- Source `int main(int argc, char* argv[])`, with `argc = argv.length`. The measured time
`elapsed` is an input of the model. -/
def main (sort : List Entry → Nat → (Entry → Entry → Bool) → List Entry) (files : Files)
    (elapsed : Nat) (argv : List (List Byte)) : Run :=
  if argv.length < 2 then
    { status := EXIT_FAILURE, out := [], err := [usage] }
  else
    { status := EXIT_SUCCESS
      out := print_topk sort (global_counter files argv) TOPK ++ elapsed_line elapsed
      err := (argv.drop 1).flatMap (fun file => (file_task files file).2) }

/-! ## The key order -/

theorem wordLt_irrefl (a : Word) : wordLt a a = false := by
  induction a with
  | nil => rfl
  | cons x xs ih => simp [wordLt, ih]

theorem wordLt_trans : ∀ (a b c : Word), wordLt a b = true → wordLt b c = true → wordLt a c = true
  | [], [], _, h, _ => by simp [wordLt] at h
  | [], _ :: _, [], _, h => by simp [wordLt] at h
  | [], _ :: _, _ :: _, _, _ => by simp [wordLt]
  | _ :: _, [], _, h, _ => by simp [wordLt] at h
  | _ :: _, _ :: _, [], _, h => by simp [wordLt] at h
  | x :: xs, y :: ys, z :: zs, h1, h2 => by
    simp only [wordLt] at h1 h2 ⊢
    by_cases hxy : x.val < y.val
    · by_cases hyz : y.val < z.val
      · have : x.val < z.val := by omega
        simp [this]
      · by_cases hzy : z.val < y.val
        · simp [hyz, hzy] at h2
        · have : x.val < z.val := by omega
          simp [this]
    · by_cases hyx : y.val < x.val
      · simp [hxy, hyx] at h1
      · simp only [hxy, hyx, if_false] at h1
        by_cases hyz : y.val < z.val
        · have : x.val < z.val := by omega
          simp [this]
        · by_cases hzy : z.val < y.val
          · simp [hyz, hzy] at h2
          · simp only [hyz, hzy, if_false] at h2
            have h3 : ¬ x.val < z.val := by omega
            have h4 : ¬ z.val < x.val := by omega
            simp only [h3, h4, if_false]
            exact wordLt_trans xs ys zs h1 h2

theorem wordLt_asymm (a b : Word) (h : wordLt a b = true) : wordLt b a = false := by
  cases hba : wordLt b a with
  | false => rfl
  | true =>
    have := wordLt_trans a b a h hba
    rw [wordLt_irrefl] at this
    exact absurd this (by simp)

theorem wordLt_connex : ∀ (a b : Word), wordLt a b = false → wordLt b a = false → a = b
  | [], [], _, _ => rfl
  | [], _ :: _, h, _ => by simp [wordLt] at h
  | _ :: _, [], _, h => by simp [wordLt] at h
  | x :: xs, y :: ys, h1, h2 => by
    simp only [wordLt] at h1 h2
    by_cases hxy : x.val < y.val
    · simp [hxy] at h1
    · by_cases hyx : y.val < x.val
      · simp [hyx] at h2
      · simp only [hxy, hyx, if_false] at h1 h2
        have hv : x = y := Fin.ext (by omega)
        rw [hv, wordLt_connex xs ys h1 h2]

theorem wordLt_ne (a b : Word) (h : wordLt a b = true) : a ≠ b := by
  intro hab
  rw [hab, wordLt_irrefl] at h
  exact absurd h (by simp)

/-! ## Sorted association lists -/

theorem Counter.WF.sorted {m : Counter} (h : Counter.WF m) : Counter.Sorted m := h.1

theorem Counter.find_eq_none_of_lt (m : Counter) (w : Word)
    (h : ∀ e ∈ m, wordLt w e.1 = true) : Counter.find m w = none := by
  induction m with
  | nil => rfl
  | cons e rest ih =>
    obtain ⟨k, v⟩ := e
    have hk : k ≠ w := fun hkw => wordLt_ne w k (h (k, v) (List.mem_cons_self _ _)) hkw.symm
    simp only [Counter.find, hk, if_false]
    exact ih (fun e he => h e (List.mem_cons_of_mem _ he))

theorem Counter.find_eq_none_iff (m : Counter) (w : Word) :
    Counter.find m w = none ↔ w ∉ Counter.keys m := by
  induction m with
  | nil => simp [Counter.find, Counter.keys]
  | cons e rest ih =>
    obtain ⟨k, v⟩ := e
    by_cases hk : k = w
    · simp [Counter.find, Counter.keys, hk]
    · have hk2 : ¬ w = k := fun h => hk h.symm
      simp only [Counter.find, hk, if_false, ih, Counter.keys, List.map_cons, List.mem_cons, hk2,
        false_or]

theorem Counter.mem_of_find_eq_some (m : Counter) (w : Word) (v : Nat)
    (h : Counter.find m w = some v) : (w, v) ∈ m := by
  induction m with
  | nil => simp [Counter.find] at h
  | cons e rest ih =>
    obtain ⟨k, u⟩ := e
    by_cases hk : k = w
    · simp only [Counter.find, hk, if_true, Option.some.injEq] at h
      rw [hk, h]
      exact List.mem_cons_self _ _
    · simp only [Counter.find, hk, if_false] at h
      exact List.mem_cons_of_mem _ (ih h)

theorem Counter.find_eq_some_of_mem (m : Counter) (hm : Counter.Sorted m) (w : Word) (v : Nat)
    (h : (w, v) ∈ m) : Counter.find m w = some v := by
  induction m with
  | nil => simp at h
  | cons e rest ih =>
    obtain ⟨k, u⟩ := e
    rw [Counter.Sorted, List.pairwise_cons] at hm
    rcases List.mem_cons.1 h with heq | hmem
    · simp only [Prod.mk.injEq] at heq
      simp [Counter.find, heq.1, heq.2]
    · have hk : k ≠ w := wordLt_ne k w (hm.1 (w, v) hmem)
      simp only [Counter.find, hk, if_false]
      exact ih hm.2 hmem

theorem Counter.Sorted.keys_nodup {m : Counter} (hm : Counter.Sorted m) :
    (Counter.keys m).Nodup := by
  induction m with
  | nil => simp [Counter.keys]
  | cons e rest ih =>
    rw [Counter.Sorted, List.pairwise_cons] at hm
    simp only [Counter.keys, List.map_cons, List.nodup_cons, List.mem_map, not_exists, not_and]
    refine ⟨fun x hx hxe => wordLt_ne e.1 x.1 (hm.1 x hx) hxe.symm, ih hm.2⟩

/-- Two sorted mappings that answer every lookup alike are the same mapping. -/
theorem Counter.ext_of_find (m₁ m₂ : Counter) (h₁ : Counter.Sorted m₁) (h₂ : Counter.Sorted m₂)
    (h : ∀ w, Counter.find m₁ w = Counter.find m₂ w) : m₁ = m₂ := by
  induction m₁ generalizing m₂ with
  | nil =>
    cases m₂ with
    | nil => rfl
    | cons e rest =>
      have := h e.1
      simp [Counter.find] at this
  | cons e₁ r₁ ih =>
    cases m₂ with
    | nil =>
      have := h e₁.1
      simp [Counter.find] at this
    | cons e₂ r₂ =>
      obtain ⟨k₁, v₁⟩ := e₁
      obtain ⟨k₂, v₂⟩ := e₂
      have s₁ := h₁
      have s₂ := h₂
      rw [Counter.Sorted, List.pairwise_cons] at h₁ h₂
      have hk : k₁ = k₂ := by
        have a₁ : (k₁, v₁) ∈ (k₂, v₂) :: r₂ := by
          apply Counter.mem_of_find_eq_some
          rw [← h k₁]
          simp [Counter.find]
        have a₂ : (k₂, v₂) ∈ (k₁, v₁) :: r₁ := by
          apply Counter.mem_of_find_eq_some
          rw [h k₂]
          simp [Counter.find]
        rcases List.mem_cons.1 a₁ with e | m1
        · exact (Prod.mk.inj e).1
        · rcases List.mem_cons.1 a₂ with e | m2
          · exact (Prod.mk.inj e).1.symm
          · have l₁ := h₂.1 _ m1
            have l₂ := h₁.1 _ m2
            simp only at l₁ l₂
            rw [wordLt_asymm _ _ l₁] at l₂
            exact absurd l₂ (by simp)
      subst hk
      have hv : v₁ = v₂ := by
        have := h k₁
        simpa [Counter.find] using this
      subst hv
      congr 1
      apply ih r₂ h₁.2 h₂.2
      intro w
      by_cases hw : k₁ = w
      · subst hw
        rw [Counter.find_eq_none_of_lt r₁ k₁ (fun e he => h₁.1 e he),
          Counter.find_eq_none_of_lt r₂ k₁ (fun e he => h₂.1 e he)]
      · have := h w
        simpa [Counter.find, hw] using this

/-! ## `operator[]` followed by an update of the mapped value -/

theorem Counter.mem_update (f : Nat → Nat) (m : Counter) (w : Word) (e : Entry)
    (h : e ∈ Counter.update f m w) : e.1 = w ∨ e ∈ m := by
  induction m with
  | nil =>
    simp only [Counter.update, List.mem_singleton] at h
    exact Or.inl (by rw [h])
  | cons x rest ih =>
    obtain ⟨k, v⟩ := x
    simp only [Counter.update] at h
    by_cases h1 : wordLt w k = true
    · simp only [h1, if_true] at h
      rcases List.mem_cons.1 h with he | he
      · exact Or.inl (by rw [he])
      · exact Or.inr he
    · by_cases h2 : wordLt k w = true
      · simp only [h1, h2, if_true, if_false] at h
        rcases List.mem_cons.1 h with he | he
        · exact Or.inr (by rw [he]; exact List.mem_cons_self _ _)
        · rcases ih he with h3 | h3
          · exact Or.inl h3
          · exact Or.inr (List.mem_cons_of_mem _ h3)
      · simp only [h1, h2, if_false] at h
        have hkw : w = k :=
          wordLt_connex w k (Bool.eq_false_iff.2 h1) (Bool.eq_false_iff.2 h2)
        rcases List.mem_cons.1 h with he | he
        · exact Or.inl (by rw [he, hkw])
        · exact Or.inr (List.mem_cons_of_mem _ he)

theorem Counter.sorted_update (f : Nat → Nat) (m : Counter) (w : Word) (hm : Counter.Sorted m) :
    Counter.Sorted (Counter.update f m w) := by
  induction m with
  | nil => simp [Counter.update, Counter.Sorted]
  | cons x rest ih =>
    obtain ⟨k, v⟩ := x
    have hm0 := hm
    rw [Counter.Sorted, List.pairwise_cons] at hm
    simp only [Counter.update]
    by_cases h1 : wordLt w k = true
    · simp only [h1, if_true]
      rw [Counter.Sorted, List.pairwise_cons]
      refine ⟨?_, hm0⟩
      intro e he
      rcases List.mem_cons.1 he with he | he
      · rw [he]; exact h1
      · exact wordLt_trans _ _ _ h1 (hm.1 e he)
    · by_cases h2 : wordLt k w = true
      · simp only [h1, h2, if_true, if_false, Bool.false_eq_true]
        rw [Counter.Sorted, List.pairwise_cons]
        refine ⟨?_, ih hm.2⟩
        intro e he
        rcases Counter.mem_update f rest w e he with h3 | h3
        · simp only [h3]; exact h2
        · exact hm.1 e h3
      · simp only [h1, h2, if_false, Bool.false_eq_true]
        rw [Counter.Sorted, List.pairwise_cons]
        exact ⟨hm.1, hm.2⟩

theorem Counter.find_update_ne (f : Nat → Nat) (m : Counter) (w w' : Word) (h : w' ≠ w) :
    Counter.find (Counter.update f m w) w' = Counter.find m w' := by
  induction m with
  | nil => simp [Counter.update, Counter.find, Ne.symm h]
  | cons x rest ih =>
    obtain ⟨k, v⟩ := x
    simp only [Counter.update]
    by_cases h1 : wordLt w k = true
    · simp [h1, Counter.find, Ne.symm h]
    · by_cases h2 : wordLt k w = true
      · simp only [h1, h2, if_true, if_false, Counter.find, ih]
      · have hkw : w = k :=
          wordLt_connex w k (Bool.eq_false_iff.2 h1) (Bool.eq_false_iff.2 h2)
        subst hkw
        simp [h1, Counter.find, Ne.symm h]

theorem Counter.find_update_self (f : Nat → Nat) (m : Counter) (w : Word)
    (hm : Counter.Sorted m) :
    Counter.find (Counter.update f m w) w = some (f (Counter.count m w)) := by
  induction m with
  | nil => simp [Counter.update, Counter.find, Counter.count]
  | cons x rest ih =>
    obtain ⟨k, v⟩ := x
    have hm0 := hm
    rw [Counter.Sorted, List.pairwise_cons] at hm
    simp only [Counter.update]
    by_cases h1 : wordLt w k = true
    · have hnone : Counter.find ((k, v) :: rest) w = none := by
        apply Counter.find_eq_none_of_lt
        intro e he
        rcases List.mem_cons.1 he with he | he
        · rw [he]; exact h1
        · exact wordLt_trans _ _ _ h1 (hm.1 e he)
      have hzero : Counter.count ((k, v) :: rest) w = 0 := by rw [Counter.count, hnone]; rfl
      rw [hzero, if_pos h1]
      simp [Counter.find]
    · by_cases h2 : wordLt k w = true
      · have hne : k ≠ w := wordLt_ne k w h2
        simp only [h1, h2, if_true, if_false, Counter.find, hne, ih hm.2, Counter.count]
      · have hkw : w = k :=
          wordLt_connex w k (Bool.eq_false_iff.2 h1) (Bool.eq_false_iff.2 h2)
        subst hkw
        simp [h1, Counter.find, Counter.count]

theorem Counter.find_update (f : Nat → Nat) (m : Counter) (w w' : Word) (hm : Counter.Sorted m) :
    Counter.find (Counter.update f m w) w' =
      if w' = w then some (f (Counter.count m w)) else Counter.find m w' := by
  by_cases h : w' = w
  · subst h
    simp [Counter.find_update_self f m w' hm]
  · simp [h, Counter.find_update_ne f m w w' h]

theorem Counter.wf_update (f : Nat → Nat) (hf : ∀ v, f v < SIZE_MOD) (m : Counter) (w : Word)
    (hm : Counter.WF m) : Counter.WF (Counter.update f m w) := by
  refine ⟨Counter.sorted_update f m w hm.1, ?_⟩
  intro e he
  have hfind := Counter.find_eq_some_of_mem _ (Counter.sorted_update f m w hm.1) e.1 e.2 he
  rw [Counter.find_update f m w e.1 hm.1] at hfind
  by_cases h : e.1 = w
  · simp only [h, if_true, Option.some.injEq] at hfind
    rw [← hfind]
    exact hf _
  · simp only [h, if_false] at hfind
    exact hm.2 e (Counter.mem_of_find_eq_some m e.1 e.2 hfind)

theorem wf_nil : Counter.WF [] := ⟨List.Pairwise.nil, by simp⟩

/-! ## Folding `merged_counter[word] += count` -/

theorem add_mod_assoc (a b c M : Nat) : ((a + b) % M + c) % M = (a + (b + c)) % M := by
  rw [Nat.add_mod, Nat.mod_mod, ← Nat.add_mod, Nat.add_assoc]

theorem total_nil (w : Word) : total [] w = 0 := rfl

theorem total_cons (e : Entry) (es : List Entry) (w : Word) :
    total (e :: es) w = (if e.1 = w then e.2 else 0) + total es w := by
  by_cases h : e.1 = w
  · simp [total, List.filter_cons, h]
  · simp [total, List.filter_cons, h]

theorem total_eq_zero (es : List Entry) (w : Word) (h : w ∉ Counter.keys es) : total es w = 0 := by
  induction es with
  | nil => rfl
  | cons e rest ih =>
    simp only [Counter.keys, List.map_cons, List.mem_cons, not_or] at h
    have hne : ¬ e.1 = w := fun he => h.1 he.symm
    rw [total_cons, if_neg hne, ih h.2]

theorem total_eq_count (m : Counter) (hm : Counter.Sorted m) (w : Word) :
    total m w = Counter.count m w := by
  induction m with
  | nil => rfl
  | cons e rest ih =>
    obtain ⟨k, v⟩ := e
    have hnd := hm.keys_nodup
    rw [Counter.Sorted, List.pairwise_cons] at hm
    rw [total_cons]
    by_cases hk : k = w
    · subst hk
      simp only [Counter.keys, List.map_cons, List.nodup_cons] at hnd
      rw [total_eq_zero rest k hnd.1]
      simp [Counter.count, Counter.find]
    · rw [ih hm.2]
      simp [Counter.count, Counter.find, hk]

theorem Counter.count_update (f : Nat → Nat) (m : Counter) (w w' : Word) (hm : Counter.Sorted m) :
    Counter.count (Counter.update f m w) w' =
      if w' = w then f (Counter.count m w) else Counter.count m w' := by
  rw [Counter.count, Counter.find_update f m w w' hm]
  by_cases h : w' = w
  · simp [h]
  · simp [h, Counter.count]

theorem Counter.sorted_foldl_add (es : List Entry) (m : Counter) (hm : Counter.Sorted m) :
    Counter.Sorted (es.foldl Counter.add m) := by
  induction es generalizing m with
  | nil => exact hm
  | cons e rest ih => exact ih _ (Counter.sorted_update _ m e.1 hm)

theorem Counter.wf_foldl_add (es : List Entry) (m : Counter) (hm : Counter.WF m) :
    Counter.WF (es.foldl Counter.add m) := by
  induction es generalizing m with
  | nil => exact hm
  | cons e rest ih =>
    exact ih _ (Counter.wf_update _ (fun v => Nat.mod_lt _ (by decide)) m e.1 hm)

theorem Counter.find_foldl_add (es : List Entry) (m : Counter) (hm : Counter.Sorted m)
    (w : Word) :
    Counter.find (es.foldl Counter.add m) w =
      if w ∈ Counter.keys es then some ((Counter.count m w + total es w) % SIZE_MOD)
      else Counter.find m w := by
  induction es generalizing m with
  | nil => simp [Counter.keys]
  | cons e rest ih =>
    have hs : Counter.Sorted (Counter.add m e) := Counter.sorted_update _ m e.1 hm
    rw [List.foldl_cons, ih _ hs, total_cons]
    simp only [Counter.add] at hs ⊢
    rw [Counter.count_update _ m e.1 w hm, Counter.find_update _ m e.1 w hm]
    by_cases hw : w = e.1
    · subst hw
      by_cases hr : e.1 ∈ Counter.keys rest
      · have hk : e.1 ∈ Counter.keys (e :: rest) := by simp [Counter.keys]
        simp only [hr, hk, if_true]
        rw [add_mod_assoc]
      · have hk : e.1 ∈ Counter.keys (e :: rest) := by simp [Counter.keys]
        simp only [hr, hk, if_true, if_false]
        rw [total_eq_zero rest e.1 hr, Nat.add_zero]
    · have hne : ¬ e.1 = w := fun h => hw h.symm
      have hk : w ∈ Counter.keys (e :: rest) ↔ w ∈ Counter.keys rest := by
        simp [Counter.keys, hw]
      simp only [hw, hne, if_false, Nat.zero_add, hk]

/-! ## `merge_counters` -/

/-- The merge loop started from an arbitrary sorted accumulator. -/
theorem merge_loop_spec (cs : FileCounters) (m : Counter) (hm : Counter.Sorted m) (w : Word) :
    Counter.Sorted (cs.foldl (fun acc c => c.foldl Counter.add acc) m) ∧
    Counter.find (cs.foldl (fun acc c => c.foldl Counter.add acc) m) w =
      if ∃ c ∈ cs, w ∈ Counter.keys c
      then some ((Counter.count m w + (cs.map (fun c => total c w)).sum) % SIZE_MOD)
      else Counter.find m w := by
  induction cs generalizing m with
  | nil => simp [hm]
  | cons c rest ih =>
    have hs := Counter.sorted_foldl_add c m hm
    obtain ⟨h1, h2⟩ := ih _ hs
    refine ⟨h1, ?_⟩
    rw [List.foldl_cons, h2, Counter.count, Counter.find_foldl_add c m hm w]
    by_cases hc : w ∈ Counter.keys c
    · have hex : ∃ c' ∈ c :: rest, w ∈ Counter.keys c' := ⟨c, List.mem_cons_self _ _, hc⟩
      simp only [hc, hex, if_true, Option.getD_some, List.map_cons, List.sum_cons]
      by_cases hr : ∃ c' ∈ rest, w ∈ Counter.keys c'
      · simp only [hr, if_true]
        rw [add_mod_assoc]
      · simp only [hr, if_false]
        have hz : (rest.map (fun c => total c w)).sum = 0 := by
          apply List.sum_eq_zero
          intro x hx
          obtain ⟨c', hc', rfl⟩ := List.mem_map.1 hx
          exact total_eq_zero c' w (fun hk => hr ⟨c', hc', hk⟩)
        rw [hz, Nat.add_zero]
    · have hiff : (∃ c' ∈ c :: rest, w ∈ Counter.keys c') ↔ ∃ c' ∈ rest, w ∈ Counter.keys c' := by
        simp [hc]
      simp only [hc, if_false, hiff, List.map_cons, List.sum_cons, total_eq_zero c w hc,
        Nat.zero_add, Counter.count]

theorem merge_counters_sorted (cs : FileCounters) : Counter.Sorted (merge_counters cs) :=
  (merge_loop_spec cs [] List.Pairwise.nil []).1

theorem merge_counters_find (cs : FileCounters) (w : Word) :
    Counter.find (merge_counters cs) w =
      if ∃ c ∈ cs, w ∈ Counter.keys c then some ((cs.map (fun c => total c w)).sum % SIZE_MOD)
      else none := by
  have h := (merge_loop_spec cs [] List.Pairwise.nil w).2
  simpa [merge_counters, Counter.count, Counter.find] using h

theorem merge_counters_wf (cs : FileCounters) : Counter.WF (merge_counters cs) := by
  unfold merge_counters
  suffices h : ∀ m, Counter.WF m →
      Counter.WF (cs.foldl (fun acc c => c.foldl Counter.add acc) m) from h [] wf_nil
  induction cs with
  | nil => exact fun m hm => hm
  | cons c rest ih => exact fun m hm => ih _ (Counter.wf_foldl_add c m hm)

/-! ## The comparison and the partial sort -/

theorem comp_strictWeakOrdering : StrictWeakOrdering comp where
  irrefl := fun a => by simp [comp]
  trans := fun a b c h₁ h₂ => by
    simp only [comp, decide_eq_true_eq] at h₁ h₂ ⊢
    omega
  equiv_trans := fun a b c h₁ h₂ h₃ h₄ => by
    simp only [comp, decide_eq_false_iff_not] at h₁ h₂ h₃ h₄ ⊢
    omega

theorem StrictWeakOrdering.asymm {cmp : Entry → Entry → Bool} (h : StrictWeakOrdering cmp)
    (a b : Entry) (hab : cmp a b = true) : cmp b a = false := by
  cases hba : cmp b a with
  | false => rfl
  | true =>
    have := h.trans a b a hab hba
    rw [h.irrefl] at this
    exact absurd this (by simp)

/-- Not preceding is transitive for a strict weak ordering. -/
theorem StrictWeakOrdering.not_lt_trans {cmp : Entry → Entry → Bool}
    (h : StrictWeakOrdering cmp) (a b c : Entry) (hba : cmp b a = false) (hcb : cmp c b = false) :
    cmp c a = false := by
  cases hca : cmp c a with
  | false => rfl
  | true =>
    exfalso
    have hbc : cmp b c = false := by
      cases hbc : cmp b c with
      | false => rfl
      | true =>
        have := h.trans b c a hbc hca
        rw [hba] at this
        exact absurd this (by simp)
    have hab : cmp a b = false := by
      cases hab : cmp a b with
      | false => rfl
      | true =>
        have := h.trans c a b hca hab
        rw [hcb] at this
        exact absurd this (by simp)
    have := (h.equiv_trans a b c hab hba hbc hcb).2
    rw [hca] at this
    exact absurd this (by simp)

theorem insert_sorted_perm (cmp : Entry → Entry → Bool) (x : Entry) (l : List Entry) :
    (insert_sorted cmp x l).Perm (x :: l) := by
  induction l with
  | nil => exact List.Perm.refl _
  | cons y ys ih =>
    simp only [insert_sorted]
    by_cases h : cmp y x = true
    · rw [if_pos h]
      exact (List.Perm.cons y ih).trans (List.Perm.swap x y ys)
    · rw [if_neg h]

theorem insert_sorted_pairwise {cmp : Entry → Entry → Bool} (hc : StrictWeakOrdering cmp)
    (x : Entry) (l : List Entry) (hl : l.Pairwise (fun a b => cmp b a = false)) :
    (insert_sorted cmp x l).Pairwise (fun a b => cmp b a = false) := by
  induction l with
  | nil => simp [insert_sorted]
  | cons y ys ih =>
    rw [List.pairwise_cons] at hl
    simp only [insert_sorted]
    by_cases h : cmp y x = true
    · rw [if_pos h, List.pairwise_cons]
      refine ⟨?_, ih hl.2⟩
      intro z hz
      rcases List.mem_cons.1 ((insert_sorted_perm cmp x ys).mem_iff.1 hz) with hzx | hzy
      · rw [hzx]; exact hc.asymm y x h
      · exact hl.1 z hzy
    · rw [if_neg h, List.pairwise_cons, List.pairwise_cons]
      have hyx : cmp y x = false := Bool.eq_false_iff.2 h
      refine ⟨?_, hl.1, hl.2⟩
      intro z hz
      rcases List.mem_cons.1 hz with hzy | hzy
      · rw [hzy]; exact hyx
      · exact hc.not_lt_trans x y z hyx (hl.1 z hzy)

theorem partial_sort_perm (words : List Entry) (middle : Nat) (cmp : Entry → Entry → Bool) :
    (partial_sort words middle cmp).Perm words := by
  induction words with
  | nil => exact List.Perm.refl _
  | cons x xs ih =>
    exact (insert_sorted_perm cmp x _).trans (List.Perm.cons x ih)

theorem partial_sort_pairwise (words : List Entry) (middle : Nat) {cmp : Entry → Entry → Bool}
    (hc : StrictWeakOrdering cmp) :
    (partial_sort words middle cmp).Pairwise (fun a b => cmp b a = false) := by
  induction words with
  | nil => exact List.Pairwise.nil
  | cons x xs ih => exact insert_sorted_pairwise hc x _ ih

/-- Sorting the whole range meets the contract of `std::partial_sort`. -/
theorem partial_sort_contract : PartialSortContract partial_sort where
  perm := fun words middle cmp _ _ => partial_sort_perm words middle cmp
  sorted := fun words middle cmp _ hc =>
    (partial_sort_pairwise words middle hc).sublist (List.take_sublist _ _)
  first := fun words middle cmp _ hc a ha b hb => by
    have h := partial_sort_pairwise words middle hc
    rw [← List.take_append_drop middle (partial_sort words middle cmp), List.pairwise_append] at h
    exact h.2.2 a ha b hb

/-! ## `print_topk`: the rows written -/

theorem topk_rows_eq (sort : List Entry → Nat → (Entry → Entry → Bool) → List Entry)
    (m : Counter) (k : Nat) :
    topk_rows sort m k = (sort m (min k m.length) comp).take (min k m.length) := rfl

theorem topk_rows_sublist (sort : List Entry → Nat → (Entry → Entry → Bool) → List Entry)
    (m : Counter) (k : Nat) :
    (topk_rows sort m k).Sublist (sort m (min k m.length) comp) :=
  List.take_sublist _ _

theorem topk_sorted_perm {sort : List Entry → Nat → (Entry → Entry → Bool) → List Entry}
    (hs : PartialSortContract sort) (m : Counter) (k : Nat) :
    (sort m (min k m.length) comp).Perm m :=
  hs.perm m _ comp (Nat.min_le_right _ _) comp_strictWeakOrdering

theorem topk_rows_length {sort : List Entry → Nat → (Entry → Entry → Bool) → List Entry}
    (hs : PartialSortContract sort) (m : Counter) (k : Nat) :
    (topk_rows sort m k).length = min k m.length := by
  rw [topk_rows_eq, List.length_take, (topk_sorted_perm hs m k).length_eq]
  omega

theorem topk_rows_pairwise {sort : List Entry → Nat → (Entry → Entry → Bool) → List Entry}
    (hs : PartialSortContract sort) (m : Counter) (k : Nat) :
    (topk_rows sort m k).Pairwise (fun a b => a.2 ≥ b.2) := by
  have h := hs.sorted m _ comp (Nat.min_le_right k m.length) comp_strictWeakOrdering
  rw [topk_rows_eq]
  refine h.imp ?_
  intro a b hab
  simp only [comp, decide_eq_false_iff_not] at hab
  omega

theorem topk_rows_mem {sort : List Entry → Nat → (Entry → Entry → Bool) → List Entry}
    (hs : PartialSortContract sort) (m : Counter) (k : Nat) (r : Entry)
    (hr : r ∈ topk_rows sort m k) : r ∈ m :=
  (topk_sorted_perm hs m k).mem_iff.1 ((topk_rows_sublist sort m k).subset hr)

/-! ## The tokenizer against the specification of tokens -/

theorem run_nil : run [] = [] := rfl

theorem run_cons (c : Byte) (cs : List Byte) :
    run (c :: cs) = if isspace c = true then [] else c :: run cs := by
  cases h : isspace c <;> simp [run, List.takeWhile_cons, h]

theorem take_run_length (s : List Byte) : s.take (run s).length = run s := by
  induction s with
  | nil => rfl
  | cons c cs ih =>
    rw [run_cons]
    by_cases h : isspace c = true
    · simp [h]
    · simp [h, ih]

theorem isspace_at_zero (c : Byte) (cs : List Byte) : isspace_at (c :: cs) 0 = isspace c := by
  simp [isspace_at]

theorem isspace_at_succ (c : Byte) (cs : List Byte) (i : Nat) :
    isspace_at (c :: cs) (i + 1) = isspace_at cs i := by
  simp [isspace_at]

theorem isspace_at_nil (i : Nat) : isspace_at [] i = false := by
  simp [isspace_at]

/-- A prefix length is that of the longest whitespace-free prefix exactly when the
prefix has no whitespace and is followed by whitespace or by the end. -/
theorem run_length_iff (d : List Byte) (m : Nat) :
    (m ≤ d.length ∧ (∀ c ∈ d.take m, isspace c = false) ∧
      (m = d.length ∨ isspace_at d m = true)) ↔ m = (run d).length := by
  induction d generalizing m with
  | nil =>
    simp only [List.length_nil, Nat.le_zero_eq, List.take_nil, List.not_mem_nil, false_imp_iff,
      implies_true, true_and, isspace_at_nil, run_nil, Bool.false_eq_true, or_false, and_self]
  | cons c cs ih =>
    cases m with
    | zero =>
      rw [run_cons]
      by_cases h : isspace c = true
      · simp [h, isspace_at_zero]
      · simp [h, isspace_at_zero]
    | succ m =>
      rw [run_cons]
      by_cases h : isspace c = true
      · simp [h]
      · have hf : isspace c = false := Bool.eq_false_iff.2 h
        rw [if_neg h]
        simp only [List.length_cons, Nat.add_le_add_iff_right, List.take_succ_cons,
          List.mem_cons, forall_eq_or_imp, hf, true_and, Nat.add_right_cancel_iff,
          isspace_at_succ]
        exact ih m

theorem isspace_at_drop (s : List Byte) (i m : Nat) :
    isspace_at (s.drop i) m = isspace_at s (i + m) := by
  simp [isspace_at, List.getElem?_drop]

theorem run_length_le (s : List Byte) : (run s).length ≤ s.length := by
  have h := congrArg List.length (take_run_length s)
  rw [List.length_take] at h
  omega

theorem is_token_iff (s : List Byte) (i j : Nat) :
    is_token s i j = true ↔
      (i = 0 ∨ isspace_at s (i - 1) = true) ∧ run (s.drop i) ≠ [] ∧
        j = i + (run (s.drop i)).length := by
  have hchar := run_length_iff (s.drop i) (j - i)
  have hlen : (s.drop i).length = s.length - i := List.length_drop i s
  have hrl := run_length_le (s.drop i)
  have hpos : run (s.drop i) ≠ [] ↔ 0 < (run (s.drop i)).length := by
    rw [List.length_pos]
  simp only [is_token, slice, Bool.and_eq_true, Bool.or_eq_true, decide_eq_true_eq, List.all_eq_true,
    Bool.not_eq_true']
  constructor
  · rintro ⟨⟨⟨⟨hij, hj⟩, hall⟩, hleft⟩, hright⟩
    have hat : isspace_at (s.drop i) (j - i) = isspace_at s j := by
      rw [isspace_at_drop]
      congr 1
      omega
    have hm : j - i = (run (s.drop i)).length := by
      apply hchar.1
      refine ⟨by omega, hall, ?_⟩
      rcases hright with h | h
      · exact Or.inl (by omega)
      · exact Or.inr (by rw [hat]; exact h)
    exact ⟨hleft, hpos.2 (by omega), by omega⟩
  · rintro ⟨hleft, hne, hj⟩
    have hp := hpos.1 hne
    have hm : j - i = (run (s.drop i)).length := by omega
    obtain ⟨h1, h2, h3⟩ := hchar.2 hm
    have hat : isspace_at (s.drop i) (j - i) = isspace_at s j := by
      rw [isspace_at_drop]
      congr 1
      omega
    refine ⟨⟨⟨⟨by omega, by omega⟩, h2⟩, hleft⟩, ?_⟩
    rcases h3 with h | h
    · exact Or.inl (by omega)
    · exact Or.inr (by rw [← hat]; exact h)

theorem filter_range_eq (n c : Nat) (h : c ≤ n) :
    (List.range (n + 1)).filter (fun j => decide (j = c)) = [c] := by
  induction n with
  | zero =>
    have : c = 0 := by omega
    subst this
    rfl
  | succ n ih =>
    rw [List.range_succ, List.filter_append]
    by_cases hc : c = n + 1
    · subst hc
      have hnil : (List.range (n + 1)).filter (fun j => decide (j = n + 1)) = [] := by
        rw [List.filter_eq_nil_iff]
        intro a ha
        have := List.mem_range.1 ha
        simp only [decide_eq_true_eq]
        omega
      rw [hnil]
      simp
    · rw [ih (by omega)]
      have : ¬ n + 1 = c := fun h => hc h.symm
      simp [List.filter_cons, this]

theorem spans_at (s : List Byte) (i : Nat) (hi : i ≤ s.length) :
    ((List.range (s.length + 1)).filter (fun j => is_token s i j)).map (fun j => slice s i j) =
      runs_at true s i := by
  have hrl := run_length_le (s.drop i)
  have hlen : (s.drop i).length = s.length - i := List.length_drop i s
  by_cases hc : (i = 0 ∨ isspace_at s (i - 1) = true) ∧ run (s.drop i) ≠ []
  · have hfun : (fun j => is_token s i j) =
        (fun j => decide (j = i + (run (s.drop i)).length)) := by
      funext j
      rw [Bool.eq_iff_iff, is_token_iff, decide_eq_true_eq]
      exact ⟨fun h => h.2.2, fun h => ⟨hc.1, hc.2, h⟩⟩
    have hc' : (if i = 0 then true = true else isspace_at s (i - 1) = true) ∧
        run (s.drop i) ≠ [] := by
      refine ⟨?_, hc.2⟩
      by_cases h0 : i = 0
      · simp [h0]
      · simpa [h0] using hc.1
    rw [hfun, filter_range_eq _ _ (by omega), runs_at, if_pos hc']
    simp [slice, take_run_length]
  · have hfun : (fun j => is_token s i j) = (fun _ => false) := by
      funext j
      rw [Bool.eq_false_iff]
      intro h
      have := (is_token_iff s i j).1 h
      exact hc ⟨this.1, this.2.1⟩
    have hc' : ¬ ((if i = 0 then true = true else isspace_at s (i - 1) = true) ∧
        run (s.drop i) ≠ []) := by
      intro h
      apply hc
      refine ⟨?_, h.2⟩
      by_cases h0 : i = 0
      · exact Or.inl h0
      · exact Or.inr (by simpa [h0] using h.1)
    rw [hfun, runs_at, if_neg hc']
    simp

theorem whitespace_delimited_eq (s : List Byte) :
    whitespace_delimited s = (List.range (s.length + 1)).flatMap (runs_at true s) := by
  rw [whitespace_delimited, token_spans, List.map_flatMap]
  apply List.flatMap_congr
  intro i hi
  rw [List.map_map]
  exact spans_at s i (by have := List.mem_range.1 hi; omega)

theorem runs_at_succ (p : Bool) (c : Byte) (cs : List Byte) (i : Nat) :
    runs_at p (c :: cs) (i + 1) = runs_at (isspace c) cs i := by
  cases i with
  | zero => simp [runs_at, isspace_at_zero]
  | succ i => simp [runs_at, isspace_at_succ]

theorem runs_at_zero (p : Bool) (c : Byte) (cs : List Byte) :
    runs_at p (c :: cs) 0 = if (p && !isspace c) = true then [run (c :: cs)] else [] := by
  rw [runs_at, run_cons]
  cases p <;> cases h : isspace c <;> simp [run_cons, h]

theorem flatMap_runs_at (p : Bool) (s : List Byte) :
    (List.range (s.length + 1)).flatMap (runs_at p s) = runs_from p s := by
  induction s generalizing p with
  | nil => simp [runs_at, runs_from, run_nil]
  | cons c cs ih =>
    rw [List.length_cons, List.range_succ_eq_map, List.flatMap_cons, List.flatMap_map, runs_from,
      runs_at_zero]
    congr 1
    rw [← ih (isspace c)]
    apply List.flatMap_congr
    intro i _
    exact runs_at_succ p c cs i

theorem extract_eq (s : List Byte) :
    extract s [] = runs_from true s ∧
    ∀ cur : Word, cur ≠ [] → extract s cur = (cur ++ run s) :: runs_from false s := by
  induction s with
  | nil =>
    refine ⟨rfl, fun cur hcur => ?_⟩
    simp [extract, hcur, run_nil, runs_from]
  | cons c cs ih =>
    obtain ⟨ih1, ih2⟩ := ih
    by_cases hc : isspace c = true
    · refine ⟨?_, fun cur hcur => ?_⟩
      · simp [extract, hc, runs_from, ih1]
      · simp [extract, hc, hcur, runs_from, ih1, run_cons]
    · have hf : isspace c = false := Bool.eq_false_iff.2 hc
      refine ⟨?_, fun cur hcur => ?_⟩
      · simp [extract, hf, runs_from, run_cons, ih2 [c] (by simp)]
      · simp [extract, hf, runs_from, run_cons, ih2 (cur ++ [c]) (by simp)]

/-- The tokens `std::istream_iterator<std::string>` yields are exactly the maximal
whitespace-delimited substrings of the text, in order. -/
theorem tokens_eq_whitespace_delimited (s : List Byte) : tokens s = whitespace_delimited s := by
  rw [whitespace_delimited_eq, flatMap_runs_at, tokens, (extract_eq s).1]

theorem extract_length_le (s : List Byte) (cur : Word) :
    (extract s cur).length ≤ s.length + (if cur = [] then 0 else 1) := by
  induction s generalizing cur with
  | nil => by_cases h : cur = [] <;> simp [extract, h]
  | cons c cs ih =>
    by_cases hc : isspace c = true
    · by_cases h : cur = []
      · have := ih []
        simp only [extract, hc, h, if_true, List.length_cons] at this ⊢
        omega
      · have := ih []
        simp only [extract, hc, h, if_true, if_false, List.length_cons] at this ⊢
        omega
    · have := ih (cur ++ [c])
      have hne : cur ++ [c] ≠ [] := by simp
      simp only [extract, hc, hne, if_false, List.length_cons, Bool.false_eq_true] at this ⊢
      split <;> omega

theorem tokens_length_le (s : List Byte) : (tokens s).length ≤ s.length := by
  have := extract_length_le s []
  simpa [tokens] using this

theorem tokens_eq_nil_of_whitespace (s : List Byte) (h : ∀ c ∈ s, isspace c = true) :
    tokens s = [] := by
  unfold tokens
  induction s with
  | nil => rfl
  | cons c cs ih =>
    have hc : isspace c = true := h c (List.mem_cons_self _ _)
    simp only [extract, hc, if_true]
    exact ih (fun x hx => h x (List.mem_cons_of_mem _ hx))

/-! ## `count_words` as a fold of `merged_counter[word] += 1` -/

theorem count_words_eq_fold (s : List Byte) :
    count_words s = ((tokens s).map (fun t => ((tolower t, 1) : Entry))).foldl Counter.add [] := by
  rw [count_words, List.foldl_map]
  rfl

theorem total_map_one (ws : List Word) (w : Word) :
    total (ws.map (fun t => ((tolower t, 1) : Entry))) w =
      (ws.filter (fun t => decide (tolower t = w))).length := by
  induction ws with
  | nil => rfl
  | cons t ts ih =>
    rw [List.map_cons, total_cons, ih]
    by_cases h : tolower t = w
    · simp [List.filter_cons, h]
      omega
    · simp [List.filter_cons, h]

theorem keys_map_one (ws : List Word) :
    Counter.keys (ws.map (fun t => ((tolower t, 1) : Entry))) = ws.map tolower := by
  simp [Counter.keys, List.map_map, Function.comp]

theorem count_words_sorted (s : List Byte) : Counter.Sorted (count_words s) := by
  rw [count_words_eq_fold]
  exact Counter.sorted_foldl_add _ [] List.Pairwise.nil

theorem count_words_wf (s : List Byte) : Counter.WF (count_words s) := by
  rw [count_words_eq_fold]
  exact Counter.wf_foldl_add _ [] wf_nil

theorem mem_map_tolower_iff (ws : List Word) (w : Word) :
    w ∈ ws.map tolower ↔ 1 ≤ (ws.filter (fun t => decide (tolower t = w))).length := by
  rw [Nat.succ_le_iff, List.length_pos, ne_eq, List.filter_eq_nil_iff, List.mem_map]
  simp only [decide_eq_true_eq, not_forall, Classical.not_imp, not_not, exists_prop]

theorem count_words_find (s : List Byte) (w : Word) :
    Counter.find (count_words s) w =
      if 1 ≤ occurrences s w then some (occurrences s w % SIZE_MOD) else none := by
  have hocc : occurrences s w = ((tokens s).filter (fun t => decide (tolower t = w))).length := by
    rw [occurrences, tokens_eq_whitespace_delimited]
  rw [count_words_eq_fold, Counter.find_foldl_add _ [] List.Pairwise.nil, keys_map_one,
    total_map_one, hocc]
  by_cases h : w ∈ (tokens s).map tolower
  · rw [if_pos h, if_pos ((mem_map_tolower_iff _ _).1 h)]
    simp [Counter.count, Counter.find]
  · rw [if_neg h, if_neg (fun h' => h ((mem_map_tolower_iff _ _).2 h'))]
    rfl

theorem count_words_count (s : List Byte) (w : Word) :
    Counter.count (count_words s) w = occurrences s w % SIZE_MOD := by
  rw [Counter.count, count_words_find s w]
  by_cases h : 1 ≤ occurrences s w
  · rw [if_pos h]; rfl
  · rw [if_neg h]
    have : occurrences s w = 0 := by omega
    rw [this]; rfl

theorem occurrences_le_length (s : List Byte) (w : Word) : occurrences s w ≤ s.length := by
  rw [occurrences, ← tokens_eq_whitespace_delimited]
  exact Nat.le_trans (List.length_filter_le _ _) (tokens_length_le s)

/-! ## The sum of the counts of a mapping -/

theorem Counter.count_le_sum (m : Counter) (w : Word) :
    Counter.count m w ≤ (m.map Prod.snd).sum := by
  induction m with
  | nil => simp [Counter.count, Counter.find]
  | cons e rest ih =>
    obtain ⟨k, v⟩ := e
    by_cases hk : k = w
    · simp [Counter.count, Counter.find, hk]
    · have : Counter.count ((k, v) :: rest) w = Counter.count rest w := by
        simp [Counter.count, Counter.find, hk]
      rw [this, List.map_cons, List.sum_cons]
      omega

theorem Counter.sum_update (f : Nat → Nat) (m : Counter) (w : Word) (hm : Counter.Sorted m) :
    ((Counter.update f m w).map Prod.snd).sum + Counter.count m w =
      (m.map Prod.snd).sum + f (Counter.count m w) := by
  induction m with
  | nil => simp [Counter.update, Counter.count, Counter.find]
  | cons x rest ih =>
    obtain ⟨k, v⟩ := x
    have hm0 := hm
    rw [Counter.Sorted, List.pairwise_cons] at hm
    simp only [Counter.update]
    by_cases h1 : wordLt w k = true
    · have hnone : Counter.find ((k, v) :: rest) w = none := by
        apply Counter.find_eq_none_of_lt
        intro e he
        rcases List.mem_cons.1 he with he | he
        · rw [he]; exact h1
        · exact wordLt_trans _ _ _ h1 (hm.1 e he)
      have hzero : Counter.count ((k, v) :: rest) w = 0 := by rw [Counter.count, hnone]; rfl
      rw [hzero, if_pos h1]
      simp only [List.map_cons, List.sum_cons]
      omega
    · by_cases h2 : wordLt k w = true
      · have hne : k ≠ w := wordLt_ne k w h2
        have hcount : Counter.count ((k, v) :: rest) w = Counter.count rest w := by
          simp [Counter.count, Counter.find, hne]
        rw [if_neg h1, if_pos h2, hcount]
        have := ih hm.2
        simp only [List.map_cons, List.sum_cons]
        omega
      · have hkw : w = k :=
          wordLt_connex w k (Bool.eq_false_iff.2 h1) (Bool.eq_false_iff.2 h2)
        subst hkw
        have hcount : Counter.count ((w, v) :: rest) w = v := by
          simp [Counter.count, Counter.find]
        rw [if_neg h1, if_neg h2, hcount]
        simp only [List.map_cons, List.sum_cons]
        omega

theorem Counter.sum_foldl_increment (ws : List Word) (m : Counter) (hm : Counter.Sorted m)
    (hlt : (m.map Prod.snd).sum + ws.length < SIZE_MOD) :
    ((ws.foldl Counter.increment m).map Prod.snd).sum = (m.map Prod.snd).sum + ws.length := by
  induction ws generalizing m with
  | nil => simp
  | cons w rest ih =>
    have hs : Counter.Sorted (Counter.increment m w) := Counter.sorted_update _ m w hm
    have hsum := Counter.sum_update (fun v => (v + 1) % SIZE_MOD) m w hm
    have hle := Counter.count_le_sum m w
    rw [List.length_cons] at hlt
    have hmod : (Counter.count m w + 1) % SIZE_MOD = Counter.count m w + 1 :=
      Nat.mod_eq_of_lt (by omega)
    simp only [hmod] at hsum
    have hstep : ((Counter.increment m w).map Prod.snd).sum = (m.map Prod.snd).sum + 1 := by
      unfold Counter.increment
      omega
    rw [List.foldl_cons, ih _ hs (by rw [hstep]; omega), hstep, List.length_cons]
    omega

theorem count_words_sum (s : List Byte) (hs : s.length < SIZE_MOD) :
    ((count_words s).map Prod.snd).sum = (tokens s).length := by
  have h : count_words s = ((tokens s).map tolower).foldl Counter.increment [] := by
    rw [count_words, List.foldl_map]
  have hlen := tokens_length_le s
  rw [h, Counter.sum_foldl_increment _ [] List.Pairwise.nil
    (by simp only [List.map_nil, List.sum_nil, List.length_map]; omega)]
  simp

/-! ## Case folding -/

theorem same_letter_iff (a b : Byte) :
    same_letter a b = true ↔
      (Fin.ofNat (std_tolower a.val) : Byte) = Fin.ofNat (std_tolower b.val) := by
  have ha := a.isLt
  have hb := b.isLt
  simp only [same_letter, is_upper, is_lower, Bool.or_eq_true, Bool.and_eq_true, beq_iff_eq,
    decide_eq_true_eq, Fin.ext_iff, Fin.ofNat, std_tolower]
  split <;> split <;> omega

theorem differ_only_in_case_iff : ∀ (t u : Word),
    differ_only_in_case t u = true ↔ tolower t = tolower u
  | [], [] => by simp [differ_only_in_case, tolower]
  | [], _ :: _ => by simp [differ_only_in_case, tolower]
  | _ :: _, [] => by simp [differ_only_in_case, tolower]
  | a :: t, b :: u => by
    have ih := differ_only_in_case_iff t u
    simp only [tolower] at ih
    simp only [differ_only_in_case, Bool.and_eq_true, same_letter_iff, ih, tolower, List.map_cons,
      List.cons.injEq]

theorem tolower_no_upper (t : Word) : ∀ b ∈ tolower t, is_upper b = false := by
  intro b hb
  obtain ⟨a, _, rfl⟩ := List.mem_map.1 hb
  have ha := a.isLt
  simp only [is_upper, decide_eq_false_iff_not, Fin.ofNat, std_tolower]
  split <;> omega

theorem count_words_keys (s : List Byte) (w : Word) :
    w ∈ Counter.keys (count_words s) ↔ w ∈ (whitespace_delimited s).map tolower := by
  rw [← tokens_eq_whitespace_delimited, count_words_eq_fold]
  have h := Counter.find_foldl_add ((tokens s).map (fun t => ((tolower t, 1) : Entry))) []
    List.Pairwise.nil w
  rw [keys_map_one] at h
  constructor
  · intro hk
    by_contra hn
    rw [if_neg hn] at h
    exact (Counter.find_eq_none_iff _ w).1 h hk
  · intro hk
    by_contra hn
    rw [if_pos hk, (Counter.find_eq_none_iff _ w).2 hn] at h
    exact absurd h (by simp)

/-! ## Claims on `count_words` -/

/-- C2: for every input text `s` and every word `w`, `count_words s` maps `w` to the
number of maximal whitespace-delimited substrings `t` of `s` with `tolower t = w` (as a
`std::size_t`, so modulo 2^64, which is the number itself for every text shorter than
2^64 bytes), and `w` is a key of the result exactly when that number is at least 1. -/
theorem count_words_spec (s : List Byte) (w : Word) :
    Counter.count (count_words s) w = occurrences s w % SIZE_MOD ∧
    (s.length < SIZE_MOD → Counter.count (count_words s) w = occurrences s w) ∧
    (w ∈ Counter.keys (count_words s) ↔ 1 ≤ occurrences s w) := by
  refine ⟨count_words_count s w, fun hs => ?_, ?_⟩
  · rw [count_words_count]
    exact Nat.mod_eq_of_lt (Nat.lt_of_le_of_lt (occurrences_le_length s w) hs)
  · rw [count_words_keys, mem_map_tolower_iff]
    rfl

theorem count_words_spec_witness :
    (ascii "cat, Cat\tcat").length < SIZE_MOD ∧
    occurrences (ascii "cat, Cat\tcat") (ascii "cat") = 2 ∧
    Counter.count (count_words (ascii "cat, Cat\tcat")) (ascii "cat") = 2 ∧
    Counter.count (count_words (ascii "cat, Cat\tcat")) (ascii "cat,") = 1 :=
  ⟨by decide, by decide,
    ((count_words_spec (ascii "cat, Cat\tcat") (ascii "cat")).2.1 (by decide)).trans (by decide),
    ((count_words_spec (ascii "cat, Cat\tcat") (ascii "cat,")).2.1 (by decide)).trans
      (by decide)⟩

/-- C3: for every input text `s` (shorter than 2^64 bytes) the sum of all counts in
`count_words s` equals the number of maximal whitespace-delimited substrings of `s`; a
text that is empty or consists only of whitespace yields the empty mapping. -/
theorem count_words_total (s : List Byte) :
    (s.length < SIZE_MOD →
      ((count_words s).map Prod.snd).sum = (whitespace_delimited s).length) ∧
    ((∀ c ∈ s, isspace c = true) → count_words s = []) := by
  refine ⟨fun hs => ?_, fun hws => ?_⟩
  · rw [count_words_sum s hs, tokens_eq_whitespace_delimited]
  · rw [count_words, tokens_eq_nil_of_whitespace s hws]
    rfl

theorem count_words_total_witness :
    (ascii " a a b\nb b  c\t").length < SIZE_MOD ∧
    (whitespace_delimited (ascii " a a b\nb b  c\t")).length = 6 ∧
    ((count_words (ascii " a a b\nb b  c\t")).map Prod.snd).sum = 6 ∧
    count_words [32, 9, 10, 13, 32] = [] ∧ count_words [] = [] :=
  ⟨by decide, by decide,
    ((count_words_total (ascii " a a b\nb b  c\t")).1 (by decide)).trans (by decide),
    (count_words_total [32, 9, 10, 13, 32]).2 (List.all_eq_true.1 (by decide)),
    (count_words_total []).2 (by simp)⟩

/-- C4: counting is case-insensitive: any two tokens `t`, `u` of a text that differ only
in the case of ASCII letters are counted under one and the same key, `tolower t`; that key
contains no uppercase ASCII letter, and its count is the number of tokens of the text that
differ from `t` only in case (as a `std::size_t`), `t` and `u` among them. No key of the
result contains an uppercase ASCII letter. -/
theorem count_words_case_insensitive (s : List Byte) (t u : Word)
    (ht : t ∈ whitespace_delimited s) (hu : u ∈ whitespace_delimited s)
    (h : differ_only_in_case t u = true) :
    tolower t = tolower u ∧
    tolower t ∈ Counter.keys (count_words s) ∧
    (∀ b ∈ tolower t, is_upper b = false) ∧
    t ∈ (whitespace_delimited s).filter (fun x => differ_only_in_case x t) ∧
    u ∈ (whitespace_delimited s).filter (fun x => differ_only_in_case x t) ∧
    Counter.count (count_words s) (tolower t) =
      ((whitespace_delimited s).filter (fun x => differ_only_in_case x t)).length % SIZE_MOD ∧
    (s.length < SIZE_MOD → Counter.count (count_words s) (tolower t) =
      ((whitespace_delimited s).filter (fun x => differ_only_in_case x t)).length) ∧
    (∀ k ∈ Counter.keys (count_words s), ∀ b ∈ k, is_upper b = false) := by
  have hocc : occurrences s (tolower t) =
      ((whitespace_delimited s).filter (fun x => differ_only_in_case x t)).length := by
    rw [occurrences]
    congr 1
    apply List.filter_congr
    intro x _
    rw [Bool.eq_iff_iff, decide_eq_true_eq, differ_only_in_case_iff]
  have hcount := count_words_count s (tolower t)
  have hle := occurrences_le_length s (tolower t)
  rw [hocc] at hcount hle
  have htu := (differ_only_in_case_iff t u).1 h
  refine ⟨htu, ?_, tolower_no_upper t,
    List.mem_filter.2 ⟨ht, (differ_only_in_case_iff t t).2 rfl⟩,
    List.mem_filter.2 ⟨hu, (differ_only_in_case_iff u t).2 htu.symm⟩, hcount,
    fun hs => by rw [hcount]; exact Nat.mod_eq_of_lt (Nat.lt_of_le_of_lt hle hs), ?_⟩
  · rw [count_words_keys]
    exact List.mem_map_of_mem _ ht
  · intro k hk
    rw [count_words_keys] at hk
    obtain ⟨x, _, rfl⟩ := List.mem_map.1 hk
    exact tolower_no_upper x

theorem count_words_case_insensitive_witness :
    ascii "The" ∈ whitespace_delimited (ascii "The the THE") ∧
    ascii "THE" ∈ whitespace_delimited (ascii "The the THE") ∧
    differ_only_in_case (ascii "The") (ascii "THE") = true ∧
    tolower (ascii "The") = ascii "the" ∧
    count_words (ascii "The the THE") = [(ascii "the", 3)] ∧
    Counter.count (count_words (ascii "The the THE")) (tolower (ascii "The")) = 3 :=
  ⟨by decide, by decide, by decide, by decide, by decide,
    ((count_words_case_insensitive (ascii "The the THE") (ascii "The") (ascii "THE")
      (by decide) (by decide) (by decide)).2.2.2.2.2.2.1 (by decide)).trans (by decide)⟩

/-! ## Claims on `merge_counters` -/

/-- C1: for every list of frequency mappings `cs` and every word `w`, `merge_counters cs`
maps `w` to the sum over the mappings of `cs` of that mapping's count for `w` (0 where `w`
is absent), reduced modulo 2^64; when the sum fits the counter width it is the sum itself. -/
theorem merge_counters_sum (cs : FileCounters) (hcs : ∀ c ∈ cs, Counter.WF c) (w : Word) :
    Counter.count (merge_counters cs) w = (cs.map (fun c => Counter.count c w)).sum % SIZE_MOD ∧
    ((cs.map (fun c => Counter.count c w)).sum < SIZE_MOD →
      Counter.count (merge_counters cs) w = (cs.map (fun c => Counter.count c w)).sum) := by
  have hmap : cs.map (fun c => total c w) = cs.map (fun c => Counter.count c w) :=
    List.map_congr_left (fun c hc => total_eq_count c (hcs c hc).1 w)
  have hmain : Counter.count (merge_counters cs) w =
      (cs.map (fun c => Counter.count c w)).sum % SIZE_MOD := by
    rw [Counter.count, merge_counters_find, hmap]
    by_cases hex : ∃ c ∈ cs, w ∈ Counter.keys c
    · simp only [hex, if_true, Option.getD_some]
    · simp only [hex, if_false, Option.getD_none]
      have hz : (cs.map (fun c => Counter.count c w)).sum = 0 := by
        apply List.sum_eq_zero
        intro x hx
        obtain ⟨c, hc, rfl⟩ := List.mem_map.1 hx
        have hnone : Counter.find c w = none :=
          (Counter.find_eq_none_iff c w).2 (fun hk => hex ⟨c, hc, hk⟩)
        simp [Counter.count, hnone]
      rw [hz, Nat.zero_mod]
  exact ⟨hmain, fun hlt => by rw [hmain, Nat.mod_eq_of_lt hlt]⟩

theorem merge_counters_sum_witness :
    (∀ c ∈ [[(ascii "a", 2), (ascii "b", 3)], [], [(ascii "0", 1), (ascii "a", 5)]],
      Counter.WF c) ∧
    Counter.count
      (merge_counters [[(ascii "a", 2), (ascii "b", 3)], [], [(ascii "0", 1), (ascii "a", 5)]])
      (ascii "a") = 7 :=
  ⟨by decide,
    ((merge_counters_sum [[(ascii "a", 2), (ascii "b", 3)], [], [(ascii "0", 1), (ascii "a", 5)]]
      (by decide) (ascii "a")).2 (by decide)).trans (by decide)⟩

/-- C10: `merge_counters` is independent of the order of its input: a permutation of the
list of mappings yields the same mapping (same keys, same counts). -/
theorem merge_counters_perm (cs cs' : FileCounters) (h : cs'.Perm cs) :
    merge_counters cs' = merge_counters cs := by
  apply Counter.ext_of_find _ _ (merge_counters_sorted cs') (merge_counters_sorted cs)
  intro w
  rw [merge_counters_find, merge_counters_find]
  have hex : (∃ c ∈ cs', w ∈ Counter.keys c) ↔ ∃ c ∈ cs, w ∈ Counter.keys c :=
    ⟨fun ⟨c, hc, hw⟩ => ⟨c, h.mem_iff.1 hc, hw⟩, fun ⟨c, hc, hw⟩ => ⟨c, h.mem_iff.2 hc, hw⟩⟩
  have hsum : (cs'.map (fun c => total c w)).sum = (cs.map (fun c => total c w)).sum :=
    (h.map _).sum_eq
  simp only [hex, hsum]

theorem merge_counters_perm_witness :
    merge_counters [[(ascii "a", 2), (ascii "b", 3)], [(ascii "b", 1), (ascii "c", 4)]] =
      [(ascii "a", 2), (ascii "b", 4), (ascii "c", 4)] ∧
    merge_counters [[(ascii "b", 1), (ascii "c", 4)], [(ascii "a", 2), (ascii "b", 3)]] =
      merge_counters [[(ascii "a", 2), (ascii "b", 3)], [(ascii "b", 1), (ascii "c", 4)]] :=
  ⟨by decide, merge_counters_perm _ _ (List.Perm.swap _ _ [])⟩

/-! ## Claims on `tolower` -/

/-- C5: `tolower s` has the length of `s` and holds at every position the byte of `s` at
that position, replaced by byte + 32 if it is an ASCII uppercase letter `'A'..'Z'`
(65..90) and unchanged otherwise. -/
theorem tolower_bytewise (s : Word) :
    (tolower s).length = s.length ∧
    ∀ i : Nat, ((tolower s)[i]?).map Fin.val =
      (s[i]?).map (fun b => if 65 ≤ b.val ∧ b.val ≤ 90 then b.val + 32 else b.val) := by
  refine ⟨by simp [tolower], fun i => ?_⟩
  simp only [tolower, List.getElem?_map, Option.map_map]
  congr 1
  funext b
  simp only [Function.comp, std_tolower, Fin.ofNat]
  have hb := b.isLt
  split <;> omega

/-! ## Claims on `print_topk` -/

/-- C6: `print_topk m K` emits exactly `min K (number of keys of m)` rows, and nothing
for `K = 0`. -/
theorem print_topk_row_count {sort : List Entry → Nat → (Entry → Entry → Bool) → List Entry}
    (hs : PartialSortContract sort) (m : Counter) (k : Nat) :
    (topk_rows sort m k).length = min k (Counter.keys m).length ∧
    topk_rows sort m 0 = [] ∧ print_topk sort m 0 = [] := by
  refine ⟨?_, ?_, ?_⟩
  · rw [topk_rows_length hs, Counter.keys, List.length_map]
  · simp [topk_rows_eq]
  · simp [print_topk, topk_rows_eq]

theorem print_topk_row_count_witness :
    PartialSortContract partial_sort ∧
    (topk_rows partial_sort [(ascii "a", 2), (ascii "b", 3), (ascii "c", 1)] 2).length = 2 ∧
    (topk_rows partial_sort [(ascii "a", 2), (ascii "b", 3), (ascii "c", 1)] 5).length = 3 :=
  ⟨partial_sort_contract,
    (print_topk_row_count partial_sort_contract
      [(ascii "a", 2), (ascii "b", 3), (ascii "c", 1)] 2).1.trans (by decide),
    (print_topk_row_count partial_sort_contract
      [(ascii "a", 2), (ascii "b", 3), (ascii "c", 1)] 5).1.trans (by decide)⟩

/-- C7: the rows emitted by `print_topk m K` are in non-increasing order of count: for
every adjacent pair of rows `(a, b)`, `count a ≥ count b` (and so for every earlier and
later row). -/
theorem print_topk_rows_descending
    {sort : List Entry → Nat → (Entry → Entry → Bool) → List Entry}
    (hs : PartialSortContract sort) (m : Counter) (k : Nat) :
    (topk_rows sort m k).Chain' (fun a b => a.2 ≥ b.2) ∧
    (topk_rows sort m k).Pairwise (fun a b => a.2 ≥ b.2) :=
  ⟨List.Pairwise.chain' (topk_rows_pairwise hs m k), topk_rows_pairwise hs m k⟩

theorem print_topk_rows_descending_witness :
    PartialSortContract partial_sort ∧
    topk_rows partial_sort [(ascii "a", 2), (ascii "b", 3), (ascii "c", 1), (ascii "d", 2)] 3 =
      [(ascii "b", 3), (ascii "a", 2), (ascii "d", 2)] ∧
    (topk_rows partial_sort
      [(ascii "a", 2), (ascii "b", 3), (ascii "c", 1), (ascii "d", 2)] 3).Chain'
      (fun a b => a.2 ≥ b.2) :=
  ⟨partial_sort_contract, by decide,
    (print_topk_rows_descending partial_sort_contract
      [(ascii "a", 2), (ascii "b", 3), (ascii "c", 1), (ascii "d", 2)] 3).1⟩

/-- C8: the rows emitted by `print_topk m K` are the entries with the highest counts:
every entry of `m` that is not emitted has a count less than or equal to the count of
every emitted row. -/
theorem print_topk_rows_highest {sort : List Entry → Nat → (Entry → Entry → Bool) → List Entry}
    (hs : PartialSortContract sort) (m : Counter) (k : Nat) (e : Entry) (he : e ∈ m)
    (hne : e ∉ topk_rows sort m k) (r : Entry) (hr : r ∈ topk_rows sort m k) : e.2 ≤ r.2 := by
  have hmem : e ∈ sort m (min k m.length) comp := (topk_sorted_perm hs m k).mem_iff.2 he
  rw [← List.take_append_drop (min k m.length) (sort m (min k m.length) comp),
    List.mem_append] at hmem
  rcases hmem with h | h
  · exact absurd h hne
  · have := hs.first m _ comp (Nat.min_le_right k m.length) comp_strictWeakOrdering r hr e h
    simp only [comp, decide_eq_false_iff_not] at this
    omega

theorem print_topk_rows_highest_witness :
    PartialSortContract partial_sort ∧
    (ascii "c", 1) ∈ [(ascii "a", 2), (ascii "b", 3), (ascii "c", 1)] ∧
    (ascii "c", 1) ∉ topk_rows partial_sort [(ascii "a", 2), (ascii "b", 3), (ascii "c", 1)] 2 ∧
    (ascii "a", 2) ∈ topk_rows partial_sort [(ascii "a", 2), (ascii "b", 3), (ascii "c", 1)] 2 ∧
    ((ascii "c", 1) : Entry).2 ≤ ((ascii "a", 2) : Entry).2 :=
  ⟨partial_sort_contract, by decide, by decide, by decide,
    print_topk_rows_highest partial_sort_contract
      [(ascii "a", 2), (ascii "b", 3), (ascii "c", 1)] 2 (ascii "c", 1) (by decide) (by decide)
      (ascii "a", 2) (by decide)⟩

/-- C9: each row emitted by `print_topk m K` is an entry of `m` with exactly the count
`m` gives that word, no word is emitted twice, and when `K` is at least the number of keys
of `m` the rows are a rearrangement of the entries of `m`: every word of `m` exactly once
and nothing else. -/
theorem print_topk_rows_entries {sort : List Entry → Nat → (Entry → Entry → Bool) → List Entry}
    (hs : PartialSortContract sort) (m : Counter) (hm : Counter.WF m) (k : Nat) :
    (∀ r ∈ topk_rows sort m k, r ∈ m ∧ Counter.find m r.1 = some r.2) ∧
    ((topk_rows sort m k).map Prod.fst).Nodup ∧
    ((Counter.keys m).length ≤ k → (topk_rows sort m k).Perm m) := by
  refine ⟨?_, ?_, ?_⟩
  · intro r hr
    have hmem := topk_rows_mem hs m k r hr
    exact ⟨hmem, Counter.find_eq_some_of_mem m hm.1 r.1 r.2 hmem⟩
  · have hsub := (topk_rows_sublist sort m k).map Prod.fst
    have hperm := (topk_sorted_perm hs m k).map Prod.fst
    exact (hperm.nodup_iff.2 hm.1.keys_nodup).sublist hsub
  · intro hk
    rw [Counter.keys, List.length_map] at hk
    have hlen := (topk_sorted_perm hs m k).length_eq
    rw [topk_rows_eq, List.take_of_length_le (by omega)]
    exact topk_sorted_perm hs m k

theorem print_topk_rows_entries_witness :
    PartialSortContract partial_sort ∧
    Counter.WF [(ascii "a", 2), (ascii "b", 3), (ascii "c", 1)] ∧
    (topk_rows partial_sort [(ascii "a", 2), (ascii "b", 3), (ascii "c", 1)] 10).Perm
      [(ascii "a", 2), (ascii "b", 3), (ascii "c", 1)] :=
  ⟨partial_sort_contract, by decide,
    (print_topk_rows_entries partial_sort_contract
      [(ascii "a", 2), (ascii "b", 3), (ascii "c", 1)] (by decide) 10).2.2 (by decide)⟩

/-! ## More on `merge_counters`: keys, a single mapping, empty mappings -/

theorem merge_counters_keys (cs : FileCounters) (w : Word) :
    w ∈ Counter.keys (merge_counters cs) ↔ ∃ c ∈ cs, w ∈ Counter.keys c := by
  have h := merge_counters_find cs w
  constructor
  · intro hk
    by_contra hn
    rw [if_neg hn] at h
    exact (Counter.find_eq_none_iff _ w).1 h hk
  · intro hex
    by_contra hn
    rw [if_pos hex, (Counter.find_eq_none_iff _ w).2 hn] at h
    exact absurd h (by simp)

theorem Counter.find_lt_of_wf (m : Counter) (hm : Counter.WF m) (w : Word) (v : Nat)
    (h : Counter.find m w = some v) : v < SIZE_MOD :=
  hm.2 (w, v) (Counter.mem_of_find_eq_some m w v h)

/-- Merging a single well-formed mapping returns it. -/
theorem merge_counters_singleton (m : Counter) (hm : Counter.WF m) : merge_counters [m] = m := by
  apply Counter.ext_of_find _ _ (merge_counters_sorted [m]) hm.1
  intro w
  rw [merge_counters_find]
  simp only [List.mem_singleton, exists_eq_left, List.map_cons, List.map_nil, List.sum_cons,
    List.sum_nil, Nat.add_zero]
  rw [total_eq_count m hm.1 w]
  by_cases hk : w ∈ Counter.keys m
  · rw [if_pos hk]
    cases hf : Counter.find m w with
    | none => exact absurd hk ((Counter.find_eq_none_iff m w).1 hf)
    | some v =>
      have hv := Counter.find_lt_of_wf m hm w v hf
      simp [Counter.count, hf, Nat.mod_eq_of_lt hv]
  · rw [if_neg hk, (Counter.find_eq_none_iff m w).2 hk]

theorem merge_loop_empties {cs cs' : FileCounters} (h : EmptiesInserted cs cs') (m : Counter) :
    cs'.foldl (fun acc c => c.foldl Counter.add acc) m =
      cs.foldl (fun acc c => c.foldl Counter.add acc) m := by
  induction h generalizing m with
  | done => rfl
  | keep c _ ih => exact ih _
  | insert _ ih => exact ih m

theorem emptiesInserted_nil (cs : FileCounters) (h : ∀ c ∈ cs, c = []) :
    EmptiesInserted [] cs := by
  induction cs with
  | nil => exact EmptiesInserted.done
  | cons c rest ih =>
    have hc : c = [] := h c (List.mem_cons_self _ _)
    subst hc
    exact EmptiesInserted.insert (ih (fun x hx => h x (List.mem_cons_of_mem _ hx)))

/-! ## Claims on `merge_counters`, continued -/

/-- C11: merging is idempotent on an already merged mapping: for all mappings `A` and `B`,
`merge_counters [merge_counters [A, B]] = merge_counters [A, B]`. -/
theorem merge_counters_idempotent (A B : Counter) :
    merge_counters [merge_counters [A, B]] = merge_counters [A, B] := by
  have hwf : Counter.WF (merge_counters [A, B]) := merge_counters_wf [A, B]
  exact merge_counters_singleton (merge_counters [A, B]) hwf

/-- C12: empty mappings contribute nothing to a merge: a list `cs'` that is `cs` with empty
mappings inserted merges to the same mapping, and so prints the same top-K rows;
`merge_counters` of the empty list or of a list of empty mappings is the empty mapping. -/
theorem merge_counters_empties (cs cs' : FileCounters) (h : EmptiesInserted cs cs') :
    merge_counters cs' = merge_counters cs ∧
    (∀ (sort : List Entry → Nat → (Entry → Entry → Bool) → List Entry) (k : Nat),
      topk_rows sort (merge_counters cs') k = topk_rows sort (merge_counters cs) k ∧
      print_topk sort (merge_counters cs') k = print_topk sort (merge_counters cs) k) ∧
    merge_counters [] = [] ∧
    (∀ es : FileCounters, (∀ c ∈ es, c = []) → merge_counters es = []) := by
  have hmerge : merge_counters cs' = merge_counters cs := merge_loop_empties h []
  refine ⟨hmerge, fun sort k => ?_, rfl, fun es hes => ?_⟩
  · rw [hmerge]
    exact ⟨rfl, rfl⟩
  · exact merge_loop_empties (emptiesInserted_nil es hes) []

theorem merge_counters_empties_witness :
    EmptiesInserted [[(ascii "a", 2)], [(ascii "a", 1), (ascii "b", 3)]]
      [[], [(ascii "a", 2)], [], [], [(ascii "a", 1), (ascii "b", 3)], []] ∧
    merge_counters [[], [(ascii "a", 2)], [], [], [(ascii "a", 1), (ascii "b", 3)], []] =
      [(ascii "a", 3), (ascii "b", 3)] ∧
    merge_counters [[], [], []] = [] :=
  ⟨.insert (.keep _ (.insert (.insert (.keep _ (.insert .done))))),
    (merge_counters_empties [[(ascii "a", 2)], [(ascii "a", 1), (ascii "b", 3)]]
      [[], [(ascii "a", 2)], [], [], [(ascii "a", 1), (ascii "b", 3)], []]
      (.insert (.keep _ (.insert (.insert (.keep _ (.insert .done))))))).1.trans (by decide),
    (merge_counters_empties [] [] .done).2.2.2 [[], [], []] (by decide)⟩

/-! ## The rows when all counts differ -/

theorem pairwise_gt_of_ge_of_nodup (l : List Entry) (hge : l.Pairwise (fun a b => a.2 ≥ b.2))
    (hnd : (l.map Prod.snd).Nodup) : l.Pairwise (fun a b => a.2 > b.2) := by
  have hne : l.Pairwise (fun a b => a.2 ≠ b.2) := by
    rw [List.Nodup, List.pairwise_map] at hnd
    exact hnd
  refine (hge.and hne).imp ?_
  intro a b hab
  have h1 := hab.1
  have h2 := hab.2
  omega

/-- With pairwise distinct counts the partial sort has no choice: the rows are the first
places of the one arrangement of the entries by strictly decreasing count. -/
theorem topk_rows_determined {sort : List Entry → Nat → (Entry → Entry → Bool) → List Entry}
    (hs : PartialSortContract sort) (m : Counter) (hnd : (m.map Prod.snd).Nodup) (k : Nat)
    (S : List Entry) (hperm : S.Perm m) (hsorted : S.Pairwise (fun a b => a.2 > b.2)) :
    topk_rows sort m k = S.take (min k m.length) := by
  have hle : min k m.length ≤ m.length := Nat.min_le_right _ _
  have hL := topk_sorted_perm hs m k
  have hD := partial_sort_perm ((sort m (min k m.length) comp).drop (min k m.length)) 0 comp
  have hDs := partial_sort_pairwise ((sort m (min k m.length) comp).drop (min k m.length)) 0
    comp_strictWeakOrdering
  have hQperm : (topk_rows sort m k ++
      partial_sort ((sort m (min k m.length) comp).drop (min k m.length)) 0 comp).Perm m := by
    refine (List.Perm.append_left _ hD).trans ?_
    rw [topk_rows_eq, List.take_append_drop]
    exact hL
  have hQge : (topk_rows sort m k ++
      partial_sort ((sort m (min k m.length) comp).drop (min k m.length)) 0 comp).Pairwise
      (fun a b => a.2 ≥ b.2) := by
    rw [List.pairwise_append]
    refine ⟨topk_rows_pairwise hs m k, ?_, ?_⟩
    · refine hDs.imp ?_
      intro a b hab
      simp only [comp, decide_eq_false_iff_not] at hab
      omega
    · intro a ha b hb
      have hb' := hD.mem_iff.1 hb
      have := hs.first m _ comp hle comp_strictWeakOrdering a ha b hb'
      simp only [comp, decide_eq_false_iff_not] at this
      omega
  have hQgt := pairwise_gt_of_ge_of_nodup _ hQge
    (((hQperm.map Prod.snd).nodup_iff).2 hnd)
  haveI : IsAntisymm Entry (fun a b => a.2 > b.2) :=
    ⟨fun a b h₁ h₂ => absurd h₁ (by omega)⟩
  have hQS := List.eq_of_perm_of_sorted (hQperm.trans hperm.symm) hQgt hsorted
  rw [← hQS, List.take_left' (topk_rows_length hs m k)]

/-! ## Claims on the determined output -/

/-- C15: when all counts are pairwise distinct the output is fully determined: for every
input text whose distinct normalized words all have different counts and every `K`,
`print_topk (count_words text) K` prints exactly the first `min K n` entries of the list of
(word, count) pairs sorted by strictly decreasing count, whatever the partial sort does. -/
theorem print_topk_determined {sort : List Entry → Nat → (Entry → Entry → Bool) → List Entry}
    (hs : PartialSortContract sort) (text : List Byte) (k : Nat)
    (hdistinct : ((count_words text).map Prod.snd).Nodup)
    (S : List Entry) (hperm : S.Perm (count_words text))
    (hsorted : S.Pairwise (fun a b => a.2 > b.2)) :
    topk_rows sort (count_words text) k = S.take (min k (count_words text).length) ∧
    print_topk sort (count_words text) k =
      (S.take (min k (count_words text).length)).flatMap format_row := by
  have hrows := topk_rows_determined hs (count_words text) hdistinct k S hperm hsorted
  refine ⟨hrows, ?_⟩
  rw [print_topk, hrows]

theorem print_topk_determined_witness :
    PartialSortContract partial_sort ∧
    ((count_words (ascii "a a b b b c")).map Prod.snd).Nodup ∧
    print_topk partial_sort (count_words (ascii "a a b b b c")) 10 =
      ascii "   3 b\n   2 a\n   1 c\n" :=
  ⟨partial_sort_contract, by decide,
    (print_topk_determined partial_sort_contract (ascii "a a b b b c") 10 (by decide)
      [(ascii "b", 3), (ascii "a", 2), (ascii "c", 1)] (by decide) (by decide)).2.trans
      (by decide)⟩

/-! ## Decimal output -/

theorem digitChar_byte (k : Nat) (h : k < 10) :
    ((Fin.ofNat (Nat.digitChar k).toNat : Byte)).val = 48 + k := by
  interval_cases k <;> rfl

theorem toDigitsCore_append (fuel n : Nat) (ds : List Char) :
    Nat.toDigitsCore 10 fuel n ds = Nat.toDigitsCore 10 fuel n [] ++ ds := by
  induction fuel generalizing n ds with
  | zero => simp [Nat.toDigitsCore]
  | succ fuel ih =>
    simp only [Nat.toDigitsCore]
    by_cases h : n / 10 = 0
    · simp [h]
    · rw [if_neg h, if_neg h, ih (n / 10) (Nat.digitChar (n % 10) :: ds),
        ih (n / 10) [Nat.digitChar (n % 10)]]
      simp

theorem decimal_value_append (ds : List Byte) (d : Byte) :
    decimal_value (ds ++ [d]) = 10 * decimal_value ds + (d.val - 48) := by
  simp [decimal_value, List.foldl_append]

/-- What `Nat.toDigitsCore` yields, as bytes, when the fuel suffices. -/
theorem toDigitsCore_spec (n : Nat) : ∀ fuel : Nat, n < fuel →
    (Nat.toDigitsCore 10 fuel n []).map (fun c => (Fin.ofNat c.toNat : Byte)) ≠ [] ∧
    (∀ b ∈ (Nat.toDigitsCore 10 fuel n []).map (fun c => (Fin.ofNat c.toNat : Byte)),
      is_digit b = true) ∧
    decimal_value ((Nat.toDigitsCore 10 fuel n []).map (fun c => (Fin.ofNat c.toNat : Byte))) = n ∧
    (n ≠ 0 → ((Nat.toDigitsCore 10 fuel n []).map
      (fun c => (Fin.ofNat c.toNat : Byte))).head? ≠ some 48) ∧
    (n = 0 → (Nat.toDigitsCore 10 fuel n []).map (fun c => (Fin.ofNat c.toNat : Byte)) = [48]) := by
  induction n using Nat.strong_induction_on with
  | _ n ih =>
    intro fuel hfuel
    cases fuel with
    | zero => omega
    | succ fuel =>
      have hmod : n % 10 < 10 := Nat.mod_lt _ (by decide)
      have hbyte := digitChar_byte (n % 10) hmod
      simp only [Nat.toDigitsCore]
      by_cases h : n / 10 = 0
      · have hn : n % 10 = n := by omega
        rw [if_pos h]
        simp only [List.map_cons, List.map_nil, ne_eq, List.cons_ne_self, not_false_eq_true,
          List.mem_singleton, forall_eq, List.head?_cons, Option.some.injEq, true_and]
        refine ⟨?_, ?_, ?_, ?_⟩
        · simp only [is_digit, decide_eq_true_eq]; omega
        · simp only [decimal_value, List.foldl_cons, List.foldl_nil]; omega
        · intro hn0 heq
          have := congrArg Fin.val heq
          rw [hbyte] at this
          simp at this
          omega
        · intro hn0
          apply List.singleton_inj.2
          apply Fin.ext
          rw [hbyte, hn0]
          rfl
      · rw [if_neg h, toDigitsCore_append]
        have hlt : n / 10 < n := by omega
        obtain ⟨h1, h2, h3, h4, _⟩ := ih (n / 10) hlt fuel (by omega)
        simp only [List.map_append, List.map_cons, List.map_nil]
        refine ⟨by simp, ?_, ?_, ?_, ?_⟩
        · intro b hb
          rcases List.mem_append.1 hb with hb | hb
          · exact h2 b hb
          · rw [List.mem_singleton] at hb
            subst hb
            simp only [is_digit, decide_eq_true_eq]
            omega
        · rw [decimal_value_append, h3, hbyte]
          omega
        · intro _
          rw [List.head?_append_of_ne_nil _ h1]
          exact h4 h
        · intro hn0
          omega

theorem decimal_spec (n : Nat) :
    decimal n ≠ [] ∧ (∀ b ∈ decimal n, is_digit b = true) ∧ decimal_value (decimal n) = n ∧
    (n ≠ 0 → (decimal n).head? ≠ some 48) ∧ (n = 0 → decimal n = [48]) :=
  toDigitsCore_spec n (n + 1) (Nat.lt_succ_self n)

theorem foldl_digits_bounds (ds : List Byte) (hd : ∀ b ∈ ds, is_digit b = true) (acc : Nat) :
    acc * 10 ^ ds.length ≤ ds.foldl (fun acc d => 10 * acc + (d.val - 48)) acc ∧
    ds.foldl (fun acc d => 10 * acc + (d.val - 48)) acc < (acc + 1) * 10 ^ ds.length := by
  induction ds generalizing acc with
  | nil => simp
  | cons d ds ih =>
    have hdig := hd d (List.mem_cons_self _ _)
    simp only [is_digit, decide_eq_true_eq] at hdig
    obtain ⟨h1, h2⟩ := ih (fun b hb => hd b (List.mem_cons_of_mem _ hb)) (10 * acc + (d.val - 48))
    simp only [List.foldl_cons, List.length_cons, pow_succ]
    constructor
    · calc acc * (10 ^ ds.length * 10) = (10 * acc) * 10 ^ ds.length := by ring
        _ ≤ (10 * acc + (d.val - 48)) * 10 ^ ds.length :=
          Nat.mul_le_mul_right _ (Nat.le_add_right _ _)
        _ ≤ _ := h1
    · calc ds.foldl (fun acc d => 10 * acc + (d.val - 48)) (10 * acc + (d.val - 48))
          < (10 * acc + (d.val - 48) + 1) * 10 ^ ds.length := h2
        _ ≤ (10 * acc + 10) * 10 ^ ds.length := Nat.mul_le_mul_right _ (by omega)
        _ = (acc + 1) * (10 ^ ds.length * 10) := by ring

/-- The number of digits written: at most four exactly for the counts up to 9999. -/
theorem decimal_length_le_four (n : Nat) : (decimal n).length ≤ 4 ↔ n ≤ 9999 := by
  obtain ⟨hne, hdig, hval, hhead, hzero⟩ := decimal_spec n
  by_cases hn : n = 0
  · rw [hzero hn, hn]
    simp
  · cases hds : decimal n with
    | nil => exact absurd hds hne
    | cons d ds =>
      rw [hds] at hdig hval hhead
      have hd := hdig d (List.mem_cons_self _ _)
      simp only [is_digit, decide_eq_true_eq] at hd
      have hd0 : d.val ≠ 48 := by
        intro h48
        apply hhead hn
        simp only [List.head?_cons, Option.some.injEq]
        exact Fin.ext h48
      obtain ⟨hlo, hhi⟩ := foldl_digits_bounds ds
        (fun b hb => hdig b (List.mem_cons_of_mem _ hb)) (10 * 0 + (d.val - 48))
      simp only [decimal_value, List.foldl_cons] at hval
      rw [hval] at hlo hhi
      simp only [List.length_cons]
      constructor
      · intro hlen
        have hpow : 10 ^ ds.length ≤ 10 ^ 3 := Nat.pow_le_pow_right (by decide) (by omega)
        have : (10 * 0 + (d.val - 48) + 1) * 10 ^ ds.length ≤ 10 * 10 ^ 3 :=
          Nat.mul_le_mul (by omega) hpow
        omega
      · intro hle
        by_contra hlen
        have hpow : 10 ^ 4 ≤ 10 ^ ds.length := Nat.pow_le_pow_right (by decide) (by omega)
        have : 1 * 10 ^ 4 ≤ (10 * 0 + (d.val - 48)) * 10 ^ ds.length :=
          Nat.mul_le_mul (by omega) hpow
        omega

/-! ## The shape of tokens and keys -/

theorem run_no_space (s : List Byte) : ∀ b ∈ run s, isspace b = false := by
  intro b hb
  have := List.mem_takeWhile_imp hb
  simpa using this

theorem runs_from_shape (p : Bool) (s : List Byte) :
    ∀ t ∈ runs_from p s, t ≠ [] ∧ ∀ b ∈ t, isspace b = false := by
  induction s generalizing p with
  | nil => simp [runs_from]
  | cons c cs ih =>
    intro t ht
    simp only [runs_from, List.mem_append] at ht
    rcases ht with ht | ht
    · by_cases hc : (p && !isspace c) = true
      · rw [if_pos hc, List.mem_singleton] at ht
        have hcs : ¬ isspace c = true := by
          simp only [Bool.and_eq_true, Bool.not_eq_true', Bool.not_eq_eq_eq_not] at hc
          simp [hc.2]
        subst ht
        refine ⟨?_, run_no_space _⟩
        rw [run_cons, if_neg hcs]
        simp
      · rw [if_neg hc] at ht
        simp at ht
    · exact ih (isspace c) t ht

theorem token_shape (s : List Byte) :
    ∀ t ∈ whitespace_delimited s, t ≠ [] ∧ ∀ b ∈ t, isspace b = false := by
  rw [← tokens_eq_whitespace_delimited, tokens, (extract_eq s).1]
  exact runs_from_shape true s

theorem tolower_no_space (t : Word) (h : ∀ b ∈ t, isspace b = false) :
    ∀ b ∈ tolower t, isspace b = false := by
  intro b hb
  obtain ⟨a, ha, rfl⟩ := List.mem_map.1 hb
  have hs := h a ha
  have hlt := a.isLt
  simp only [isspace, Bool.or_eq_false_iff, decide_eq_false_iff_not, Fin.ofNat,
    std_tolower] at hs ⊢
  split <;> constructor <;> omega

theorem isspace_iff (b : Byte) :
    isspace b = true ↔ b.val = 32 ∨ b.val = 9 ∨ b.val = 10 ∨ b.val = 11 ∨ b.val = 12 ∨
      b.val = 13 := by
  simp only [isspace, Bool.or_eq_true, decide_eq_true_eq]
  omega

/-! ## Claims on the invariants of `count_words` -/

/-- C19: for every input text, every key of `count_words`' result is a non-empty string
that contains no whitespace byte (space, tab, newline, vertical tab, form feed, carriage
return). -/
theorem count_words_key_shape (s : List Byte) (k : Word)
    (hk : k ∈ Counter.keys (count_words s)) :
    k ≠ [] ∧ ∀ b ∈ k, isspace b = false ∧
      b.val ≠ 32 ∧ b.val ≠ 9 ∧ b.val ≠ 10 ∧ b.val ≠ 11 ∧ b.val ≠ 12 ∧ b.val ≠ 13 := by
  rw [count_words_keys] at hk
  obtain ⟨t, ht, rfl⟩ := List.mem_map.1 hk
  obtain ⟨hne, hns⟩ := token_shape s t ht
  refine ⟨?_, fun b hb => ?_⟩
  · intro h
    apply hne
    have := congrArg List.length h
    simpa [tolower] using this
  · have hb' := tolower_no_space t hns b hb
    have hiff := isspace_iff b
    rw [hb'] at hiff
    refine ⟨hb', ?_⟩
    simp only [Bool.false_eq_true, false_iff, not_or] at hiff
    exact hiff

theorem count_words_key_shape_witness :
    ascii "ab" ∈ Counter.keys (count_words (ascii " Ab\tc,\r\n")) ∧
    Counter.keys (count_words (ascii " Ab\tc,\r\n")) = [ascii "ab", ascii "c,"] ∧
    ascii "ab" ≠ [] :=
  ⟨by decide, by decide,
    (count_words_key_shape (ascii " Ab\tc,\r\n") (ascii "ab") (by decide)).1⟩

/-! ## Claims on the call of `std::partial_sort` -/

/-- C17: the comparison `print_topk` passes to the partial sort (`lhs` precedes `rhs` iff
`lhs`'s count is strictly greater) is a strict weak ordering on map entries: irreflexive,
transitive, with "neither precedes the other" the equivalence relation of equal counts;
and the split point `min K size` lies within the sequence. So the preconditions of the
partial sort hold for every mapping and every `K`, and what the contract promises holds
at the call `print_topk` makes. -/
theorem partial_sort_preconditions :
    StrictWeakOrdering comp ∧
    (∀ a : Entry, comp a a = false) ∧
    (∀ a b c : Entry, comp a b = true → comp b c = true → comp a c = true) ∧
    Equivalence (fun a b : Entry => comp a b = false ∧ comp b a = false) ∧
    (∀ a b : Entry, (comp a b = false ∧ comp b a = false) ↔ a.2 = b.2) ∧
    (∀ (m : Counter) (k : Nat), actual_k m k ≤ m.length) ∧
    (∀ (sort : List Entry → Nat → (Entry → Entry → Bool) → List Entry) (m : Counter) (k : Nat),
      topk_rows sort m k = (sort m (actual_k m k) comp).take (actual_k m k)) ∧
    (∀ (sort : List Entry → Nat → (Entry → Entry → Bool) → List Entry),
      PartialSortContract sort → ∀ (m : Counter) (k : Nat),
        (sort m (actual_k m k) comp).Perm m ∧
        ((sort m (actual_k m k) comp).take (actual_k m k)).Pairwise
          (fun a b => comp b a = false)) := by
  have hswo := comp_strictWeakOrdering
  have heq : ∀ a b : Entry, (comp a b = false ∧ comp b a = false) ↔ a.2 = b.2 := by
    intro a b
    simp only [comp, decide_eq_false_iff_not]
    omega
  have hk : ∀ (m : Counter) (k : Nat), actual_k m k ≤ m.length :=
    fun m k => Nat.min_le_right k m.length
  refine ⟨hswo, hswo.irrefl, hswo.trans, ?_, heq, hk, fun _ _ _ => rfl, ?_⟩
  · refine ⟨fun a => ⟨hswo.irrefl a, hswo.irrefl a⟩, fun h => ⟨h.2, h.1⟩, ?_⟩
    intro a b c hab hbc
    exact hswo.equiv_trans a b c hab.1 hab.2 hbc.1 hbc.2
  · intro sort hs m k
    exact ⟨hs.perm m _ comp (hk m k) hswo, hs.sorted m _ comp (hk m k) hswo⟩

theorem partial_sort_preconditions_witness :
    PartialSortContract partial_sort ∧
    actual_k [(ascii "a", 2), (ascii "b", 3)] 10 = 2 ∧
    (partial_sort [(ascii "a", 2), (ascii "b", 3)]
      (actual_k [(ascii "a", 2), (ascii "b", 3)] 10) comp).Perm
      [(ascii "a", 2), (ascii "b", 3)] :=
  ⟨partial_sort_contract, by decide,
    (partial_sort_preconditions.2.2.2.2.2.2.2 partial_sort partial_sort_contract
      [(ascii "a", 2), (ascii "b", 3)] 10).1⟩

/-! ## `main`: the per-file tasks -/

theorem file_task_none (files : Files) (file : List Byte) (h : files file = none) :
    file_task files file = ([], [diagnostic file]) := by
  simp [file_task, h]

theorem file_task_some (files : Files) (file input : List Byte) (h : files file = some input) :
    file_task files file = (count_words input, []) := by
  simp [file_task, h]

theorem file_counters_cons (files : Files) (argv0 : List Byte) (args : List (List Byte)) :
    file_counters files (argv0 :: args) = args.map (fun file => (file_task files file).1) := rfl

theorem emptiesInserted_opened (files : Files) (args : List (List Byte)) :
    EmptiesInserted
      ((args.filter (fun file => (files file).isSome)).map (fun file => (file_task files file).1))
      (args.map (fun file => (file_task files file).1)) := by
  induction args with
  | nil => exact EmptiesInserted.done
  | cons f rest ih =>
    cases hf : files f with
    | none =>
      simp only [List.filter_cons, hf, Option.isSome_none, Bool.false_eq_true, if_false,
        List.map_cons, file_task_none files f hf]
      exact EmptiesInserted.insert ih
    | some input =>
      simp only [List.filter_cons, hf, Option.isSome_some, if_true, List.map_cons]
      exact EmptiesInserted.keep _ ih

theorem global_counter_opened (files : Files) (argv0 : List Byte) (args : List (List Byte)) :
    global_counter files (argv0 :: args) =
      global_counter files (argv0 :: args.filter (fun file => (files file).isSome)) := by
  rw [global_counter, global_counter, file_counters_cons, file_counters_cons]
  exact merge_loop_empties (emptiesInserted_opened files args) []

theorem diagnostics_eq (files : Files) (args : List (List Byte)) :
    args.flatMap (fun file => (file_task files file).2) =
      (args.filter (fun file => (files file).isNone)).map diagnostic := by
  induction args with
  | nil => rfl
  | cons f rest ih =>
    cases hf : files f with
    | none =>
      simp only [List.flatMap_cons, file_task_none files f hf, List.filter_cons, hf,
        Option.isNone_none, if_true, List.map_cons, ih, List.singleton_append]
    | some input =>
      simp only [List.flatMap_cons, file_task_some files f input hf, List.filter_cons, hf,
        Option.isNone_some, Bool.false_eq_true, if_false, ih, List.nil_append]

theorem main_of_no_file (sort : List Entry → Nat → (Entry → Entry → Bool) → List Entry)
    (files : Files) (elapsed : Nat) (argv : List (List Byte)) (h : argv.length < 2) :
    main sort files elapsed argv = { status := EXIT_FAILURE, out := [], err := [usage] } := by
  rw [main, if_pos h]

theorem main_of_files (sort : List Entry → Nat → (Entry → Entry → Bool) → List Entry)
    (files : Files) (elapsed : Nat) (argv : List (List Byte)) (h : 2 ≤ argv.length) :
    main sort files elapsed argv =
      { status := EXIT_SUCCESS
        out := print_topk sort (global_counter files argv) TOPK ++ elapsed_line elapsed
        err := (argv.drop 1).flatMap (fun file => (file_task files file).2) } := by
  rw [main, if_neg (by omega)]

/-! ## Claims on `main` -/

/-- C16: the exit status is success if and only if at least one file argument was supplied,
whatever the files are and however many fail to open; with no file argument the program
writes the usage message to the error channel, nothing to standard output, and returns a
non-zero status without looking at any file. -/
theorem main_exit_status (sort : List Entry → Nat → (Entry → Entry → Bool) → List Entry)
    (files : Files) (elapsed : Nat) (argv : List (List Byte)) :
    ((main sort files elapsed argv).status = EXIT_SUCCESS ↔ 2 ≤ argv.length) ∧
    (argv.length < 2 →
      (main sort files elapsed argv).status = EXIT_FAILURE ∧ EXIT_FAILURE ≠ 0 ∧
      (main sort files elapsed argv).out = [] ∧
      (main sort files elapsed argv).err = [usage] ∧
      ∀ (files' : Files) (elapsed' : Nat),
        main sort files' elapsed' argv = main sort files elapsed argv) ∧
    (2 ≤ argv.length → ∀ files' : Files,
      (main sort files' elapsed argv).status = EXIT_SUCCESS ∧ EXIT_SUCCESS = 0) := by
  refine ⟨?_, fun h => ?_, fun h files' => ?_⟩
  · by_cases h : argv.length < 2
    · rw [main_of_no_file sort files elapsed argv h]
      simp only [EXIT_FAILURE, EXIT_SUCCESS]
      omega
    · rw [main_of_files sort files elapsed argv (by omega)]
      simp only [true_iff]
      omega
  · rw [main_of_no_file sort files elapsed argv h]
    refine ⟨rfl, by decide, rfl, rfl, fun files' elapsed' => ?_⟩
    rw [main_of_no_file sort files' elapsed' argv h]
  · rw [main_of_files sort files' elapsed argv h]
    exact ⟨rfl, rfl⟩

theorem main_exit_status_witness :
    main partial_sort (fun _ => none) 7 [ascii "topk_words"] =
      { status := 1, out := [], err := [ascii "Usage: topk_words [FILES...]\n"] } ∧
    (main partial_sort (fun _ => none) 7 [ascii "topk_words", ascii "nowhere.txt"]).status = 0 ∧
    (main partial_sort (fun _ => none) 7 [ascii "topk_words", ascii "nowhere.txt"]).err =
      [ascii "Failed to open file nowhere.txt\n"] :=
  ⟨by
      have h := (main_exit_status partial_sort (fun _ => none) 7 [ascii "topk_words"]).2.1
        (by decide)
      exact Run.ext h.1 h.2.2.1 (h.2.2.2.1.trans (by decide)),
    ((main_exit_status partial_sort (fun _ => none) 7
      [ascii "topk_words", ascii "nowhere.txt"]).2.2 (by decide) (fun _ => none)).1,
    by decide⟩

/-- C13: a file that cannot be opened contributes an empty mapping and does not stop the
run: for every argument list and every assignment of "unopenable" or contents to its files,
the merged mapping, and with it the word rows printed, are those of the argument list with
the unopenable files removed; the run succeeds, and one diagnostic naming the file is
written to the error channel per unopenable file. A nonexistent path plus a file containing
"x y x" prints "   2 x" then "   1 y", whatever the partial sort does. -/
theorem main_unopenable_files {sort : List Entry → Nat → (Entry → Entry → Bool) → List Entry}
    (hs : PartialSortContract sort) (files : Files) (elapsed : Nat) (argv0 : List Byte)
    (args : List (List Byte)) :
    global_counter files (argv0 :: args) =
      global_counter files (argv0 :: args.filter (fun file => (files file).isSome)) ∧
    (args.filter (fun file => (files file).isSome) ≠ [] →
      (main sort files elapsed (argv0 :: args)).out =
        (main sort files elapsed (argv0 :: args.filter (fun file => (files file).isSome))).out) ∧
    (args ≠ [] →
      (main sort files elapsed (argv0 :: args)).status = EXIT_SUCCESS ∧
      (main sort files elapsed (argv0 :: args)).out =
        print_topk sort (global_counter files
          (argv0 :: args.filter (fun file => (files file).isSome))) TOPK ++
          elapsed_line elapsed ∧
      (main sort files elapsed (argv0 :: args)).err =
        (args.filter (fun file => (files file).isNone)).map diagnostic) ∧
    (∀ missing present : List Byte, files missing = none → files present = some (ascii "x y x") →
      main sort files elapsed [argv0, missing, present] =
        { status := EXIT_SUCCESS
          out := ascii "   2 x\n   1 y\n" ++ elapsed_line elapsed
          err := [diagnostic missing] }) := by
  have hlen : ∀ l : List (List Byte), l ≠ [] → 2 ≤ (argv0 :: l).length := by
    intro l hl
    cases l with
    | nil => exact absurd rfl hl
    | cons a l => simp
  have hglobal := global_counter_opened files argv0 args
  refine ⟨hglobal, fun hopened => ?_, fun hargs => ?_, ?_⟩
  · have hargs : args ≠ [] := by
      intro h
      rw [h] at hopened
      exact hopened rfl
    rw [main_of_files sort files elapsed _ (hlen args hargs),
      main_of_files sort files elapsed _ (hlen _ hopened), ← hglobal]
  · rw [main_of_files sort files elapsed _ (hlen args hargs), ← hglobal]
    exact ⟨rfl, rfl, diagnostics_eq files args⟩
  · intro missing present hmissing hpresent
    have hcounter : global_counter files [argv0, missing, present] =
        [(ascii "x", 2), (ascii "y", 1)] := by
      rw [global_counter, file_counters_cons]
      simp only [List.map_cons, List.map_nil, file_task_none files missing hmissing,
        file_task_some files present _ hpresent]
      decide
    have hrows := topk_rows_determined hs [(ascii "x", 2), (ascii "y", 1)] (by decide) TOPK
      [(ascii "x", 2), (ascii "y", 1)] (List.Perm.refl _) (by decide)
    rw [main_of_files sort files elapsed _ (by simp)]
    apply Run.ext
    · rfl
    · simp only []
      rw [hcounter, print_topk, hrows]
      rfl
    · simp only [List.drop_succ_cons, List.drop_zero, List.flatMap_cons, List.flatMap_nil,
        file_task_none files missing hmissing, file_task_some files present _ hpresent]
      rfl

theorem main_unopenable_files_witness :
    PartialSortContract partial_sort ∧
    main partial_sort (fun file => if file = ascii "words.txt" then some (ascii "x y x") else none)
        7 [ascii "topk_words", ascii "nowhere.txt", ascii "words.txt"] =
      { status := 0
        out := ascii "   2 x\n   1 y\nElapsed time is 7 us\n"
        err := [ascii "Failed to open file nowhere.txt\n"] } :=
  ⟨partial_sort_contract,
    ((main_unopenable_files partial_sort_contract
      (fun file => if file = ascii "words.txt" then some (ascii "x y x") else none) 7
      (ascii "topk_words") [ascii "nowhere.txt", ascii "words.txt"]).2.2.2
      (ascii "nowhere.txt") (ascii "words.txt") (by decide) (by decide)).trans (by decide)⟩

/-! ## The pipeline: what `global_counter` holds -/

theorem mem_le_sum (l : List Nat) (x : Nat) (hx : x ∈ l) : x ≤ l.sum := by
  induction l with
  | nil => simp at hx
  | cons a rest ih =>
    rw [List.sum_cons]
    rcases List.mem_cons.1 hx with h | h
    · omega
    · have := ih h
      omega

theorem sum_map_le_sum_map {α : Type} (l : List α) (f g : α → Nat) (h : ∀ x ∈ l, f x ≤ g x) :
    (l.map f).sum ≤ (l.map g).sum := by
  induction l with
  | nil => simp
  | cons a rest ih =>
    have h1 := h a (List.mem_cons_self _ _)
    have h2 := ih (fun x hx => h x (List.mem_cons_of_mem _ hx))
    simp only [List.map_cons, List.sum_cons]
    omega

theorem count_words_pos (s : List Byte) (hs : s.length < SIZE_MOD) :
    ∀ e ∈ count_words s, 1 ≤ e.2 := by
  intro e he
  have hfind := Counter.find_eq_some_of_mem _ (count_words_sorted s) e.1 e.2 he
  rw [count_words_find] at hfind
  by_cases h : 1 ≤ occurrences s e.1
  · rw [if_pos h, Option.some.injEq,
      Nat.mod_eq_of_lt (Nat.lt_of_le_of_lt (occurrences_le_length s e.1) hs)] at hfind
    omega
  · rw [if_neg h] at hfind
    exact absurd hfind (by simp)

theorem count_words_count_le (s : List Byte) (w : Word) :
    Counter.count (count_words s) w ≤ s.length := by
  rw [count_words_count]
  exact Nat.le_trans (Nat.mod_le _ _) (occurrences_le_length s w)

theorem merge_counters_pos (cs : FileCounters)
    (hcs : ∀ c ∈ cs, Counter.Sorted c ∧ ∀ e ∈ c, 1 ≤ e.2) (e : Entry)
    (he : e ∈ merge_counters cs)
    (hsum : (cs.map (fun c => Counter.count c e.1)).sum < SIZE_MOD) : 1 ≤ e.2 := by
  have hfind := Counter.find_eq_some_of_mem _ (merge_counters_sorted cs) e.1 e.2 he
  have hmap : cs.map (fun c => total c e.1) = cs.map (fun c => Counter.count c e.1) :=
    List.map_congr_left (fun c hc => total_eq_count c (hcs c hc).1 e.1)
  rw [merge_counters_find, hmap] at hfind
  by_cases hex : ∃ c ∈ cs, e.1 ∈ Counter.keys c
  · rw [if_pos hex, Option.some.injEq, Nat.mod_eq_of_lt hsum] at hfind
    obtain ⟨c, hc, hk⟩ := hex
    cases hf : Counter.find c e.1 with
    | none => exact absurd hk ((Counter.find_eq_none_iff c e.1).1 hf)
    | some v =>
      have hv : 1 ≤ v := (hcs c hc).2 (e.1, v) (Counter.mem_of_find_eq_some c e.1 v hf)
      have hle : Counter.count c e.1 ≤ (cs.map (fun c => Counter.count c e.1)).sum :=
        mem_le_sum _ _ (List.mem_map_of_mem _ hc)
      have hcount : Counter.count c e.1 = v := by simp [Counter.count, hf]
      omega
  · rw [if_neg hex] at hfind
    exact absurd hfind (by simp)

theorem file_task_sorted (files : Files) (file : List Byte) :
    Counter.Sorted (file_task files file).1 := by
  cases hf : files file with
  | none => rw [file_task_none files file hf]; exact List.Pairwise.nil
  | some input => rw [file_task_some files file input hf]; exact count_words_sorted input

theorem file_task_count_le (files : Files) (file : List Byte) (w : Word) :
    Counter.count (file_task files file).1 w ≤ ((files file).getD []).length := by
  cases hf : files file with
  | none => rw [file_task_none files file hf]; simp [Counter.count, Counter.find]
  | some input =>
    rw [file_task_some files file input hf]
    exact count_words_count_le input w

theorem file_task_pos (files : Files) (file : List Byte)
    (h : ((files file).getD []).length < SIZE_MOD) : ∀ e ∈ (file_task files file).1, 1 ≤ e.2 := by
  cases hf : files file with
  | none => rw [file_task_none files file hf]; simp
  | some input =>
    rw [file_task_some files file input hf]
    rw [hf] at h
    exact count_words_pos input h

theorem file_task_keys_lower (files : Files) (file : List Byte) :
    ∀ k ∈ Counter.keys (file_task files file).1, ∀ b ∈ k, is_upper b = false := by
  cases hf : files file with
  | none => rw [file_task_none files file hf]; simp [Counter.keys]
  | some input =>
    rw [file_task_some files file input hf]
    intro k hk
    rw [count_words_keys] at hk
    obtain ⟨t, _, rfl⟩ := List.mem_map.1 hk
    exact tolower_no_upper t

theorem global_counter_pos (files : Files) (argv : List (List Byte))
    (hsize : ((argv.drop 1).map (fun file => ((files file).getD []).length)).sum < SIZE_MOD) :
    ∀ e ∈ global_counter files argv, 1 ≤ e.2 := by
  intro e he
  apply merge_counters_pos (file_counters files argv) _ e he
  · rw [file_counters, List.map_map]
    refine Nat.lt_of_le_of_lt (sum_map_le_sum_map _ _ _ ?_) hsize
    intro file _
    exact file_task_count_le files file e.1
  · intro c hc
    obtain ⟨file, hfile, rfl⟩ := List.mem_map.1 hc
    refine ⟨file_task_sorted files file, file_task_pos files file ?_⟩
    exact Nat.lt_of_le_of_lt (mem_le_sum _ _
      (List.mem_map_of_mem (fun file => ((files file).getD []).length) hfile)) hsize

theorem global_counter_keys_lower (files : Files) (argv : List (List Byte)) :
    ∀ k ∈ Counter.keys (global_counter files argv), ∀ b ∈ k, is_upper b = false := by
  intro k hk
  rw [global_counter, merge_counters_keys] at hk
  obtain ⟨c, hc, hkc⟩ := hk
  obtain ⟨file, _, rfl⟩ := List.mem_map.1 hc
  exact file_task_keys_lower files file k hkc

/-! ## Claims on the printed rows -/

/-- C14: every row printed by `print_topk` is the decimal count (digits `'0'..'9'` denoting
the count, without leading zero) right-justified with leading spaces in a field of minimum
width 4, followed by exactly one space, the word and a newline; a count with more than 4
decimal digits, that is above 9999, is printed in full, without truncation and without
leading spaces. The words printed by the program are lowercased: they hold no uppercase
ASCII letter. -/
theorem print_topk_row_format {sort : List Entry → Nat → (Entry → Entry → Bool) → List Entry}
    (hs : PartialSortContract sort) :
    (∀ (m : Counter) (k : Nat),
      print_topk sort m k = (topk_rows sort m k).flatMap format_row) ∧
    (∀ e : Entry,
      format_row e =
        List.replicate (4 - (decimal e.2).length) 32 ++ decimal e.2 ++ [32] ++ e.1 ++ [10] ∧
      (List.replicate (4 - (decimal e.2).length) (32 : Byte) ++ decimal e.2).length =
        max 4 (decimal e.2).length ∧
      decimal e.2 ≠ [] ∧ (∀ b ∈ decimal e.2, is_digit b = true) ∧
      decimal_value (decimal e.2) = e.2 ∧
      (e.2 ≠ 0 → (decimal e.2).head? ≠ some 48) ∧
      (9999 < e.2 → 4 < (decimal e.2).length ∧
        format_row e = decimal e.2 ++ [32] ++ e.1 ++ [10]) ∧
      (e.2 ≤ 9999 →
        (List.replicate (4 - (decimal e.2).length) (32 : Byte) ++ decimal e.2).length = 4)) ∧
    (∀ (files : Files) (argv : List (List Byte)) (k : Nat),
      ∀ r ∈ topk_rows sort (global_counter files argv) k, ∀ b ∈ r.1, is_upper b = false) := by
  refine ⟨fun _ _ => rfl, fun e => ?_, fun files argv k r hr => ?_⟩
  · obtain ⟨hne, hdig, hval, hhead, _⟩ := decimal_spec e.2
    have hfour := decimal_length_le_four e.2
    have hlen : (List.replicate (4 - (decimal e.2).length) (32 : Byte) ++ decimal e.2).length =
        max 4 (decimal e.2).length := by
      rw [List.length_append, List.length_replicate]
      omega
    refine ⟨rfl, hlen, hne, hdig, hval, hhead, fun hbig => ?_, fun hsmall => ?_⟩
    · have hlong : 4 < (decimal e.2).length := by
        by_contra hle
        have := hfour.1 (by omega)
        omega
      refine ⟨hlong, ?_⟩
      have hpad : 4 - (decimal e.2).length = 0 := by omega
      rw [format_row, hpad]
      rfl
    · rw [hlen]
      have := hfour.2 hsmall
      omega
  · have hmem := topk_rows_mem hs _ k r hr
    apply global_counter_keys_lower files argv r.1
    exact List.mem_map_of_mem Prod.fst hmem

theorem print_topk_row_format_witness :
    PartialSortContract partial_sort ∧
    format_row (ascii "the", 3) = ascii "   3 the\n" ∧
    format_row (ascii "w", 1234) = ascii "1234 w\n" ∧
    format_row (ascii "w", 123456) = ascii "123456 w\n" ∧
    decimal_value (decimal 123456) = 123456 :=
  ⟨partial_sort_contract, by decide, by decide,
    (((print_topk_row_format partial_sort_contract).2.1 (ascii "w", 123456)).2.2.2.2.2.2.1
      (by decide)).2.trans (by decide),
    ((print_topk_row_format partial_sort_contract).2.1 (ascii "w", 123456)).2.2.2.2.1⟩

/-- C18: every count is positive through the pipeline: every key of `count_words`' result
has count at least 1 (for every text shorter than 2^64 bytes); for every list of mappings
whose counts are all at least 1 the key set of `merge_counters`' result is exactly the
union of the input key sets and every key has count at least 1 when its sum does not
overflow; so no row printed by the program shows a count of 0. -/
theorem counts_positive {sort : List Entry → Nat → (Entry → Entry → Bool) → List Entry}
    (hs : PartialSortContract sort) :
    (∀ text : List Byte, text.length < SIZE_MOD → ∀ e ∈ count_words text, 1 ≤ e.2) ∧
    (∀ cs : FileCounters, (∀ c ∈ cs, Counter.WF c ∧ ∀ e ∈ c, 1 ≤ e.2) →
      (∀ w : Word, w ∈ Counter.keys (merge_counters cs) ↔ ∃ c ∈ cs, w ∈ Counter.keys c) ∧
      (∀ e ∈ merge_counters cs,
        (cs.map (fun c => Counter.count c e.1)).sum < SIZE_MOD → 1 ≤ e.2)) ∧
    (∀ (files : Files) (argv : List (List Byte)) (k : Nat),
      ((argv.drop 1).map (fun file => ((files file).getD []).length)).sum < SIZE_MOD →
      ∀ r ∈ topk_rows sort (global_counter files argv) k, 1 ≤ r.2) := by
  refine ⟨count_words_pos, fun cs hcs => ⟨merge_counters_keys cs, fun e he hsum => ?_⟩,
    fun files argv k hsize r hr => ?_⟩
  · exact merge_counters_pos cs (fun c hc => ⟨(hcs c hc).1.1, (hcs c hc).2⟩) e he hsum
  · exact global_counter_pos files argv hsize r (topk_rows_mem hs _ k r hr)

theorem counts_positive_witness :
    PartialSortContract partial_sort ∧
    (ascii "a b a").length < SIZE_MOD ∧
    (ascii "a", 2) ∈ count_words (ascii "a b a") ∧
    1 ≤ ((ascii "a", 2) : Entry).2 ∧
    (ascii "b", 4) ∈ merge_counters [[(ascii "a", 2), (ascii "b", 3)], [(ascii "b", 1)]] ∧
    1 ≤ ((ascii "b", 4) : Entry).2 :=
  ⟨partial_sort_contract, by decide, by decide,
    (counts_positive partial_sort_contract).1 (ascii "a b a") (by decide) (ascii "a", 2)
      (by decide),
    by decide,
    ((counts_positive partial_sort_contract).2.1
      [[(ascii "a", 2), (ascii "b", 3)], [(ascii "b", 1)]] (by decide)).2 (ascii "b", 4)
      (by decide) (by decide)⟩

end TopkWords
